import Mathlib

/-!
Verification development for the `workgraph` workspace build orchestrator.

The TypeScript sources under `src/` are shallowly embedded here:
JavaScript `Map<string, V>` values become association lists
`List (String × V)` (iteration order = insertion order), `Set<string>`
values become duplicate-free `List String` (JS sets preserve insertion
order and deduplicate), and mutable state becomes explicit state passing.
Loops with early `return` become `List.any`/`List.all` or folds, and the
two unbounded loops (`planWaves`'s `while`, `getAffectedProjects`'s BFS,
the cycle detector's DFS) are totalized with an explicit fuel parameter;
the theorems prove the provided fuel always suffices, so the fuel-out
branch is unreachable.

String comparison: the sources sort with `localeCompare`; we model that
collation as code-point comparison `strLe` (a total, transitive order),
which is the standard determinism reading of the spec's
"sorted lexicographically".
-/

namespace Workgraph

/-- Code-point comparison on character lists, used to model the
`localeCompare`-based sorts in `planner.ts` and `graph.ts`. -/
def strLeAux : List Char → List Char → Bool
  | [], _ => true
  | _ :: _, [] => false
  | a :: as, b :: bs =>
    if a.toNat < b.toNat then true
    else if b.toNat < a.toNat then false
    else strLeAux as bs

/-- Comparison on strings modelling `a.localeCompare(b) <= 0`. -/
def strLe (a b : String) : Bool := strLeAux a.data b.data

/-- Stable insertion used to model `Array.prototype.sort` (a stable sort)
with the `localeCompare` comparator. -/
def orderedInsertStr (a : String) : List String → List String
  | [] => [a]
  | b :: l => if strLe a b then a :: b :: l else b :: orderedInsertStr a l

/-- Stable sort by `strLe`, modelling `wave.sort((a, b) => a.localeCompare(b))`. -/
def sortStr : List String → List String
  | [] => []
  | a :: l => orderedInsertStr a (sortStr l)

/-- Dependency / reverse-dependency maps: `Map<string, Set<string>>`. -/
abbrev DepsMap := List (String × List String)

/-- Lookup modelling `deps.get(node) || new Set()` (`planner.ts`,
`affected.ts`, `graph.ts`): the bound set if the key is present, the
empty set otherwise. -/
def lookupDeps (m : DepsMap) (n : String) : List String :=
  match m.find? (fun p => p.1 == n) with
  | some p => p.2
  | none => []

/-! ## Wave planner (`planner.ts`, `planWaves`) -/

/-- In-degree initialization over the induced subgraph
(`planner.ts` lines 22-29): for each node of `affected`, the number of
its dependencies that also lie in `affected`. -/
def initInDeg (affected : List String) (deps : DepsMap) (n : String) : Int :=
  (((lookupDeps deps n).filter (fun d => d ∈ affected)).length : Int)

/-- One step of the wave-removal loop (`planner.ts` lines 50-59): delete
`node` from `remaining`, then decrement the in-degree of every `other`
still in `remaining` whose dependency set contains `node`. -/
def removeNode (deps : DepsMap) (st : List String × (String → Int)) (node : String) :
    List String × (String → Int) :=
  let remaining' := st.1.erase node
  (remaining',
    fun o => if o ∈ remaining' ∧ node ∈ lookupDeps deps o then st.2 o - 1 else st.2 o)

/-- Fuelled body of the `while (remaining.size > 0)` loop of `planWaves`
(`planner.ts` lines 34-61). `none` models the thrown
"Cycle detected in affected subgraph" error, and is also returned on
fuel exhaustion (proved unreachable: each round removes at least one
node, so `affected.length` rounds suffice). -/
def planWavesAux (deps : DepsMap) : Nat → List String → (String → Int) →
    Option (List (List String))
  | 0, remaining, _ => if remaining.isEmpty then some [] else none
  | fuel + 1, remaining, inDeg =>
    if remaining.isEmpty then some []
    else
      let wave := remaining.filter (fun n => inDeg n == 0)
      if wave.isEmpty then none
      else
        let sortedWave := sortStr wave
        let st' := sortedWave.foldl (removeNode deps) (remaining, inDeg)
        (planWavesAux deps fuel st'.1 st'.2).map (fun ws => sortedWave :: ws)

/-- Embedding of `planWaves(affected, deps)` (`planner.ts` lines 13-64).
The affected set is a duplicate-free list, the result the list of waves;
`none` models the cycle error. -/
def planWaves (affected : List String) (deps : DepsMap) :
    Option (List (List String)) :=
  if affected.isEmpty then some []
  else planWavesAux deps affected.length affected (initInDeg affected deps)

/-- Edge relation of the subgraph induced on `A`: `x` depends on `y`
within `A`. -/
def edgeIn (A : List String) (deps : DepsMap) (x y : String) : Prop :=
  x ∈ A ∧ y ∈ A ∧ y ∈ lookupDeps deps x

/-- Acyclicity of the subgraph induced on `A`: no node reaches itself
through a nonempty chain of induced edges. -/
def AcyclicOn (A : List String) (deps : DepsMap) : Prop :=
  ∀ x, ¬ Relation.TransGen (edgeIn A deps) x x

/-- Source of the induced subgraph: a node none of whose dependencies lie
in `A`. -/
def isSourceIn (A : List String) (deps : DepsMap) (n : String) : Prop :=
  ∀ d ∈ lookupDeps deps n, d ∉ A

/-! ## Affected-set computation (`affected.ts`, `getAffectedProjects`) -/

/-- Fuelled body of the BFS loop of `getAffectedProjects` (`affected.ts`
lines 11-23): pop `current` from the queue head; skip it when already in
`affected`, otherwise add it and enqueue each of its dependents not yet in
`affected` (the membership test runs after `current` was added, as in the
source). `none` models fuel exhaustion and is proved unreachable. -/
def getAffectedAux (rdeps : DepsMap) : Nat → List String → List String →
    Option (List String)
  | 0, affected, queue => if queue.isEmpty then some affected else none
  | fuel + 1, affected, queue =>
    match queue with
    | [] => some affected
    | current :: rest =>
      if current ∈ affected then getAffectedAux rdeps fuel affected rest
      else
        getAffectedAux rdeps fuel (affected ++ [current])
          (rest ++ (lookupDeps rdeps current).filter
            (fun d => d ∉ affected ++ [current]))

/-- Fuel bound for the BFS: every name ever enqueued lies in the seed set
or in some reverse-dependency set, and each name is expanded at most
once. -/
def affectedFuel (changed : List String) (rdeps : DepsMap) : Nat :=
  changed.length +
    ((changed ++ (rdeps.map Prod.snd).flatten).dedup.map
      (fun x => 1 + (lookupDeps rdeps x).length)).sum

/-- Embedding of `getAffectedProjects(changedProjects, rdeps)`
(`affected.ts` lines 4-26): BFS over reverse edges starting from the seed
set, with `affected` doubling as the visited set. -/
def getAffectedProjects (changedProjects : List String) (rdeps : DepsMap) :
    Option (List String) :=
  getAffectedAux rdeps (affectedFuel changedProjects rdeps) [] changedProjects

/-- Proof-side measure justifying the BFS fuel bound. -/
def bfsMeasure (U : List String) (rdeps : DepsMap)
    (affected queue : List String) : Nat :=
  queue.length +
    ((U.dedup.filter (fun x => x ∉ affected)).map
      (fun x => 1 + (lookupDeps rdeps x).length)).sum

/-! ## Graph construction (`graph.ts`, `buildGraph`) -/

/-- Dependency-relevant shape of a `package.json` (`types.ts`): the key
lists of the four dependency records. Record values (version ranges) do
not influence the graph and are omitted; JS object keys are unique within
one record. -/
structure PackageJson where
  dependencies : List String
  devDependencies : List String
  peerDependencies : List String
  optionalDependencies : List String
deriving DecidableEq

/-- Project record (`types.ts`): declared name, workspace-relative path,
absolute path, manifest. -/
structure Project where
  name : String
  path : String
  absolutePath : String
  packageJson : PackageJson
deriving DecidableEq

/-- Key list of the object spread `{...a, ...b}`: the keys of `a` in
order, then the keys of `b` not already present. -/
def unionKeys (a b : List String) : List String :=
  a ++ b.filter (fun k => k ∉ a)

/-- Keys of `{...dependencies, ...devDependencies, ...peerDependencies,
...optionalDependencies}` (`graph.ts` lines 15-20). -/
def allDepsKeys (p : Project) : List String :=
  unionKeys
    (unionKeys (unionKeys p.packageJson.dependencies p.packageJson.devDependencies)
      p.packageJson.peerDependencies)
    p.packageJson.optionalDependencies

/-- JS `Set.prototype.add`: append the value unless already present. -/
def setAdd (s : List String) (v : String) : List String :=
  if v ∈ s then s else s ++ [v]

/-- Mutation `m.get(k)!.add(v)` on an association-list map: update the
binding of `k` (in `buildGraph`, keys are unique and always present). -/
def mapAddToSet (m : DepsMap) (k v : String) : DepsMap :=
  m.map (fun p => if p.1 = k then (p.1, setAdd p.2 v) else p)

/-- Projects map `Map<string, Project>` in insertion order. -/
abbrev ProjectsMap := List (String × Project)

/-- Key set of the projects map (`projects.keys()`, `projects.has`). -/
def projectKeys (projects : ProjectsMap) : List String :=
  projects.map Prod.fst

/-- Graph record `DependencyGraph` (`types.ts`). -/
structure DependencyGraph where
  projects : ProjectsMap
  deps : DepsMap
  rdeps : DepsMap

/-- One iteration of `buildGraph`'s inner loop (`graph.ts` lines 22-29):
when `depName` names a known project, record `name → depName` in `deps`
and the mirror in `rdeps`; otherwise do nothing. -/
def addEdge (keys : List String) (st : DepsMap × DepsMap) (name depName : String) :
    DepsMap × DepsMap :=
  if depName ∈ keys then (mapAddToSet st.1 name depName, mapAddToSet st.2 depName name)
  else st

/-- Inner loop of `buildGraph` for one project: fold `addEdge` over the
spread union of its four dependency maps. -/
def addProjectEdges (keys : List String) (st : DepsMap × DepsMap)
    (pair : String × Project) : DepsMap × DepsMap :=
  (allDepsKeys pair.2).foldl (fun st2 d => addEdge keys st2 pair.1 d) st

/-- Embedding of `buildGraph(projects)` (`graph.ts` lines 3-33):
initialize an empty set for every project name in both maps, then insert
every intra-workspace dependency edge. -/
def buildGraph (projects : ProjectsMap) : DependencyGraph :=
  let init : DepsMap := projects.map (fun p => (p.1, []))
  let st := projects.foldl (addProjectEdges (projectKeys projects)) (init, init)
  ⟨projects, st.1, st.2⟩

/-- Concrete two-project workspace used in witnesses: `@x/app` depends on
`@x/lib` (runtime), on itself (dev — a declared self-loop), and on the
external package `left-pad` (no edge). -/
def exProjects : ProjectsMap :=
  [("@x/app", ⟨"@x/app", "apps/app", "/ws/apps/app",
      ⟨["@x/lib", "left-pad"], ["@x/app"], [], []⟩⟩),
   ("@x/lib", ⟨"@x/lib", "libs/lib", "/ws/libs/lib", ⟨[], [], [], []⟩⟩)]

/-! ## Cycle detection (`graph.ts`, `detectCycles`) -/

/-- Color constants of the three-color DFS (`graph.ts` lines 36-38). -/
def WHITE : Nat := 0

/-- Color of a node on the current DFS stack. -/
def GRAY : Nat := 1

/-- Color of a finished node. -/
def BLACK : Nat := 2

/-- Pointwise update of the color map (`color.set(n, v)`). Colors are
`Option Nat`: `none` models `color.get` returning `undefined` for names
never initialized. -/
def setColor (c : String → Option Nat) (n : String) (v : Nat) :
    String → Option Nat :=
  fun x => if x = n then some v else c x

/-- JS `Array.prototype.indexOf`: index of the first occurrence, `-1`
when absent. -/
def jsIndexOf (x : String) : List String → Int
  | [] => -1
  | a :: l =>
    if a = x then 0
    else if jsIndexOf x l = -1 then -1 else jsIndexOf x l + 1

/-- JS `Array.prototype.slice(start)`: a negative start counts from the
end (`max(length + start, 0)`). -/
def jsSliceFrom (l : List String) (i : Int) : List String :=
  if i < 0 then l.drop ((l.length : Int) + i).toNat else l.drop i.toNat

/-- State of the cycle-detection DFS: the color map and the accumulated
cycle list. -/
abbrev DfsState := (String → Option Nat) × List (List String)

/-- Body of the `for (const dep of nodeDeps)` loop of `dfs`
(`graph.ts` lines 53-63): a GRAY dependency records the cycle slice
`[...path.slice(path.indexOf(dep)), dep]`, a WHITE dependency recurses
(through `dfsRec`), anything else (BLACK, or `undefined` for an unknown
name) is skipped. -/
def dfsStep (dfsRec : String → List String → DfsState → DfsState)
    (path' : List String) (st2 : DfsState) (dep : String) : DfsState :=
  if st2.1 dep = some GRAY then
    (st2.1, st2.2 ++ [jsSliceFrom path' (jsIndexOf dep path') ++ [dep]])
  else if st2.1 dep = some WHITE then dfsRec dep path' st2
  else st2

/-- Fuelled embedding of the recursive `dfs` of `detectCycles`
(`graph.ts` lines 48-67). `path` is passed explicitly (the source pushes
`node` on entry and pops it on exit, so each call sees its caller's path
restored). Fuel exhaustion returns the state unchanged and is proved
unreachable (each call consumes one WHITE node). -/
def dfs (deps : DepsMap) : Nat → String → List String → DfsState → DfsState
  | 0, _, _, st => st
  | fuel + 1, node, path, st =>
    let st2 := (lookupDeps deps node).foldl
      (dfsStep (fun d p s => dfs deps fuel d p s) (path ++ [node]))
      (setColor st.1 node GRAY, st.2)
    (setColor st2.1 node BLACK, st2.2)

/-- Embedding of `detectCycles(graph)` (`graph.ts` lines 35-76): color
every project name WHITE, run the DFS from every still-WHITE name in map
order, and return `some cycles` when at least one cycle was recorded and
`none` (the source's `null`) otherwise. -/
def detectCycles (g : DependencyGraph) : Option (List (List String)) :=
  let keys := projectKeys g.projects
  let color0 : String → Option Nat := fun x => if x ∈ keys then some WHITE else none
  let final := keys.foldl
    (fun (st : (String → Option Nat) × List (List String)) name =>
      if st.1 name = some WHITE then dfs g.deps keys.length name [] st else st)
    (color0, [])
  if final.2.length > 0 then some final.2 else none

/-- Acyclicity of the full dependency graph. -/
def AcyclicGraph (g : DependencyGraph) : Prop :=
  AcyclicOn (projectKeys g.projects) g.deps

/-- Number of WHITE entries of the color map over the project names;
justifies the DFS fuel. -/
def whiteCount (keys : List String) (c : String → Option Nat) : Nat :=
  (keys.filter (fun x => c x = some WHITE)).length

/-! ## CLI command models (`cli.ts`) and identifier resolution
(`affected.ts`, `resolveProjectNames`) -/

/-- Comparison modelling `String.prototype.endsWith`. -/
def strEndsWith (s suffix : String) : Bool :=
  suffix.data.isSuffixOf s.data

/-- Comparison modelling `String.prototype.startsWith`. -/
def strStartsWith (s pre : String) : Bool :=
  pre.data.isPrefixOf s.data

/-- One iteration of `resolveProjectNames`'s outer loop (`affected.ts`
lines 57-79). Exact key match adds the identifier and continues;
otherwise the first project whose `path` or `absolutePath` equals the
identifier is added, and then — the source does not `continue` after the
path loop — also the first project name equal to the identifier or
ending in `"/" + identifier`. -/
def resolveOne (graph : DependencyGraph) (resolved : List String)
    (identifier : String) : List String :=
  if identifier ∈ projectKeys graph.projects then setAdd resolved identifier
  else
    let r1 := match graph.projects.find?
        (fun pr => pr.2.path == identifier || pr.2.absolutePath == identifier) with
      | some pr => setAdd resolved pr.1
      | none => resolved
    match (projectKeys graph.projects).find?
        (fun name => strEndsWith name ("/" ++ identifier) || name == identifier) with
    | some name => setAdd r1 name
    | none => r1

/-- Embedding of `resolveProjectNames(projectIdentifiers, graph)`
(`affected.ts` lines 51-82). -/
def resolveProjectNames (projectIdentifiers : List String)
    (graph : DependencyGraph) : List String :=
  projectIdentifiers.foldl (resolveOne graph) []

/-- Outcomes of the `plan`/`build` command actions (`cli.ts`), up to
output formatting: `fatalCycles` models "cycles detected" + exit 1,
`fatalUnresolved` models "Could not resolve any projects from:" + exit 1,
`planError` models the planner's or the BFS's (unreachable) internal error,
`planned` the printed plan, `nothingToBuild` the build command's early
return, and `proceeds` the build command continuing to generators and
executor with the computed plan. -/
inductive CmdOutcome where
  | fatalCycles
  | fatalUnresolved (inputs : List String)
  | planError
  | planned (affected : List String) (waves : List (List String))
  | nothingToBuild
  | proceeds (affected : List String) (waves : List (List String))
deriving DecidableEq

/-- Affected-set and wave computation shared by the command models
(`cli.ts` lines 309-310 and 354-355). -/
def planFrom (graph : DependencyGraph) (changedProjects : List String) :
    CmdOutcome :=
  match getAffectedProjects changedProjects graph.rdeps with
  | none => .planError
  | some affected =>
    match planWaves affected graph.deps with
    | none => .planError
    | some waves => .planned affected waves

/-- Embedding of the `plan` command action (`cli.ts` lines 283-317):
refuse on cycles; with no `--changed` plan all projects; otherwise
resolve the identifiers and fail fatally when none resolves. -/
def planCommand (projects : ProjectsMap) (changed : List String) : CmdOutcome :=
  let graph := buildGraph projects
  match detectCycles graph with
  | some _ => .fatalCycles
  | none =>
    if changed.isEmpty then planFrom graph (projectKeys projects)
    else
      let changedProjects := resolveProjectNames changed graph
      if changedProjects.isEmpty then .fatalUnresolved changed
      else planFrom graph changedProjects

/-- Embedding of the `build` command action (`cli.ts` lines 330-372) up
to the point where generators and the executor take over: refuse on
cycles; resolve `--changed` (with no emptiness check, unlike `plan`);
return early with "Nothing to build" on an empty wave list; otherwise
proceed. -/
def buildCommandPhase1 (projects : ProjectsMap) (changed : List String) :
    CmdOutcome :=
  let graph := buildGraph projects
  match detectCycles graph with
  | some _ => .fatalCycles
  | none =>
    let changedProjects :=
      if changed.isEmpty then projectKeys projects
      else resolveProjectNames changed graph
    match getAffectedProjects changedProjects graph.rdeps with
    | none => .planError
    | some affected =>
      match planWaves affected graph.deps with
      | none => .planError
      | some waves =>
        if waves.isEmpty then .nothingToBuild else .proceeds affected waves

/-- Triangle workspace `{A→B, B→C, C→A}` from the spec's cycle
scenario. -/
def triProjects : ProjectsMap :=
  [("A", ⟨"A", "a", "/ws/a", ⟨["B"], [], [], []⟩⟩),
   ("B", ⟨"B", "b", "/ws/b", ⟨["C"], [], [], []⟩⟩),
   ("C", ⟨"C", "c", "/ws/c", ⟨["A"], [], [], []⟩⟩)]

/-- Acyclic two-node workspace (`B` depends on `A`), used as the
counterexample input for C4. -/
def lineProjects : ProjectsMap :=
  [("A", ⟨"A", "a", "/ws/a", ⟨[], [], [], []⟩⟩),
   ("B", ⟨"B", "b", "/ws/b", ⟨["A"], [], [], []⟩⟩)]

/-! ## Executor (`executor.ts`, `executePlan`) -/

/-- Result record for one project build (`types.ts`). -/
structure ProjectBuildResult where
  project : String
  success : Bool
  duration : Nat
  output : String
  error : String
deriving DecidableEq

/-- Aggregated result (`types.ts`; the wall-clock duration field is not
modelled — wall-clock time is outside the embedding). -/
structure BuildResult where
  success : Bool
  results : List ProjectBuildResult
deriving DecidableEq

/-- Step info passed to `onStart` (`types.ts`). -/
structure BuildStepInfo where
  project : String
  wave : Nat
  totalWaves : Nat
  step : Nat
  totalSteps : Nat
  isParallel : Bool
deriving DecidableEq

/-- Outcome oracle standing for `runCommand` (`executor.ts` lines 35-94):
for each project name, the exit success, the captured stdout and stderr
buffers, and the measured duration of its spawned build command. -/
structure RunOutcome where
  success : Bool
  output : String
  error : String
  duration : Nat
deriving DecidableEq

/-- Execution state threaded through the waves (`executor.ts` lines
136-140), extended with the `onStart`/`onComplete` invocation logs so
the callback claims can be stated. -/
structure ExecState where
  results : List ProjectBuildResult
  overallSuccess : Bool
  currentStep : Nat
  starts : List BuildStepInfo
  completes : List ProjectBuildResult
deriving DecidableEq

/-- One project build task (`executor.ts` lines 149-209), sequentialized:
the bounded-concurrency runner completes every task of its wave, and the
claims proved here do not depend on completion order, so admission order
stands in for it. A name missing from the projects map yields the
'Project not found' result without invoking either callback and without
flipping `overallSuccess`, exactly as the source's early return does.
The dry-run branch synthesizes a successful result after `onStart` and
returns before `onComplete`. -/
def runProject (projects : ProjectsMap) (buildCommand : Project → String)
    (run : String → RunOutcome) (dryRun : Bool)
    (waveIndex totalWaves totalSteps : Nat) (isParallel : Bool)
    (st : ExecState) (projectName : String) : ExecState :=
  match projects.find? (fun p => p.1 == projectName) with
  | none =>
    { st with results := st.results ++
        [⟨projectName, false, 0, "", "Project not found"⟩] }
  | some pr =>
    let stepInfo : BuildStepInfo :=
      ⟨projectName, waveIndex + 1, totalWaves, st.currentStep + 1, totalSteps, isParallel⟩
    let cmd := buildCommand pr.2
    if dryRun then
      { st with
          currentStep := st.currentStep + 1,
          starts := st.starts ++ [stepInfo],
          results := st.results ++
            [⟨projectName, true, 0, "[dry-run] Would run: " ++ cmd, ""⟩] }
    else
      let r := run projectName
      { results := st.results ++ [⟨projectName, r.success, r.duration, r.output, r.error⟩],
        overallSuccess := st.overallSuccess && r.success,
        currentStep := st.currentStep + 1,
        starts := st.starts ++ [stepInfo],
        completes :=
          st.completes ++ [⟨projectName, r.success, r.duration, r.output, r.error⟩] }

/-- Wave loop of `executePlan` (`executor.ts` lines 142-218): run every
task of the current wave, append its results, and stop before the next
wave when `overallSuccess` was flipped. -/
def execWaves (projects : ProjectsMap) (buildCommand : Project → String)
    (run : String → RunOutcome) (dryRun : Bool) (totalWaves totalSteps : Nat) :
    List (List String) → Nat → ExecState → ExecState
  | [], _, st => st
  | wave :: rest, waveIndex, st =>
    let st' := wave.foldl
      (runProject projects buildCommand run dryRun waveIndex totalWaves totalSteps
        (decide (wave.length > 1))) st
    if st'.overallSuccess then
      execWaves projects buildCommand run dryRun totalWaves totalSteps rest
        (waveIndex + 1) st'
    else st'

/-- Embedding of `executePlan(waves, projects, root, options)`
(`executor.ts` lines 123-225). Returns the aggregated `BuildResult`
together with the `onStart` and `onComplete` logs. -/
def executePlan (waves : List (List String)) (projects : ProjectsMap)
    (buildCommand : Project → String) (run : String → RunOutcome) (dryRun : Bool) :
    BuildResult × List BuildStepInfo × List ProjectBuildResult :=
  let totalSteps := (waves.map List.length).sum
  let final := execWaves projects buildCommand run dryRun waves.length totalSteps
    waves 0 ⟨[], true, 0, [], []⟩
  (⟨final.overallSuccess, final.results⟩, final.starts, final.completes)

/-- Concrete three-project workspace for the executor witnesses. -/
def xyzProjects : ProjectsMap :=
  [("x", ⟨"x", "px", "/ws/px", ⟨[], [], [], []⟩⟩),
   ("y", ⟨"y", "py", "/ws/py", ⟨[], [], [], []⟩⟩),
   ("z", ⟨"z", "pz", "/ws/pz", ⟨["x"], [], [], []⟩⟩)]

/-- Concrete outcome oracle with `x` failing and everything else
succeeding. -/
def xFailsRun : String → RunOutcome :=
  fun n => if n = "x" then ⟨false, "", "boom", 7⟩ else ⟨true, "ok", "", 5⟩

/-- Constant build command used in executor witnesses. -/
def exBuildCommand : Project → String := fun pr => "npm run build -w " ++ pr.name

/-! ## Watch-loop coalescing protocol (`cli.ts`, `handleChanges`) -/

/-- JS `Set` union in insertion order, modelling
`for (const p of changedProjects) pendingChanges.add(p)`
(`cli.ts` lines 654-657). -/
def setUnion (a b : List String) : List String := b.foldl setAdd a

/-- Events of the watch-loop protocol: a change batch delivered by the
watcher's `onChange`, or one of the three `isBuilding` releases of
`handleChanges` — `finishBuild` models reaching line 761 (normal
completion of the build body), `finishEmpty` the "No matching projects to
build" early release (line 684), `finishGenFail` the generator-failure
early release (line 725). -/
inductive WatchEv where
  | change (batch : List String)
  | finishBuild
  | finishEmpty
  | finishGenFail
deriving DecidableEq

/-- Orchestrator state of the coalescing protocol (`cli.ts` lines
648-649: `isBuilding`, `pendingChanges`), extended with the number of
builds currently in progress (`running`, to make "at most one build at a
time" expressible) and the log of inputs of the builds started so far. -/
structure WatchState where
  isBuilding : Bool
  pendingChanges : Option (List String)
  builds : List (List String)
  running : Nat
deriving DecidableEq

/-- Initial orchestrator state (`cli.ts` lines 648-649). -/
def initWatchState : WatchState := ⟨false, none, [], 0⟩

/-- Transition function of `handleChanges` (`cli.ts` lines 652-768) at
the `isBuilding`/`pendingChanges` protocol level. A change while building
is unioned into the single pending batch and starts nothing (lines
653-658); a change while idle acquires the lock and starts one build
(line 661). `finishBuild` releases the lock and, when a non-empty pending
batch exists (`pendingChanges && pendingChanges.size > 0`, modelled by
`getD []`), clears it and re-enters `handleChanges` with it, starting
exactly one follow-up build (lines 761-767); the two early releases keep
the pending batch (lines 682-686, 722-727). -/
def watchStep : WatchState → WatchEv → WatchState
  | s, .change batch =>
    if s.isBuilding then
      { s with pendingChanges := some (setUnion (s.pendingChanges.getD []) batch) }
    else
      { s with isBuilding := true, builds := s.builds ++ [batch],
               running := s.running + 1 }
  | s, .finishBuild =>
    if s.isBuilding then
      if (s.pendingChanges.getD []).length > 0 then
        { isBuilding := true, pendingChanges := none,
          builds := s.builds ++ [s.pendingChanges.getD []],
          running := s.running - 1 + 1 }
      else { s with isBuilding := false, running := s.running - 1 }
    else s
  | s, .finishEmpty =>
    if s.isBuilding then { s with isBuilding := false, running := s.running - 1 }
    else s
  | s, .finishGenFail =>
    if s.isBuilding then { s with isBuilding := false, running := s.running - 1 }
    else s

/-! ## Generator trigger (`cli.ts`, `shouldRunGenerator`) -/

/-- Generator declaration (`types.ts`, `SourceConfig`), restricted to the
fields `shouldRunGenerator` reads. -/
structure SourceConfig where
  command : String
  deps : List String
deriving DecidableEq

/-- Resolution of `path.resolve(root, sourcePath)` for the shapes
reaching this code path: an absolute source path is kept, a relative one
is joined under the (absolute) root; `..` segments are not modelled. -/
def jsPathResolve (root p : String) : String :=
  if strStartsWith p "/" then p else root ++ "/" ++ p

/-- Embedding of `shouldRunGenerator(sourcePath, sourceConfig,
affectedProjects, projects, root)` (`cli.ts` lines 57-95): with declared
deps, any dep matching an affected project name exactly, or matching some
affected project's workspace-relative path by equality or by the suffix
`"/" + dep`, triggers the generator; with no deps, the generator runs
when its resolved key path starts with some affected project's absolute
path. -/
def shouldRunGenerator (sourcePath : String) (sourceConfig : SourceConfig)
    (affectedProjects : List String) (projects : ProjectsMap) (root : String) :
    Bool :=
  if sourceConfig.deps.length > 0 then
    sourceConfig.deps.any (fun dep =>
      affectedProjects.contains dep ||
      affectedProjects.any (fun projectName =>
        match projects.find? (fun p => p.1 == projectName) with
        | none => false
        | some pr => pr.2.path == dep || strEndsWith pr.2.path ("/" ++ dep)))
  else
    affectedProjects.any (fun projectName =>
      match projects.find? (fun p => p.1 == projectName) with
      | none => false
      | some pr => strStartsWith (jsPathResolve root sourcePath) pr.2.absolutePath)

/-- Resolution rule as the claim states it (a refinement definition
following the spec's words, for comparison with the source's
`shouldRunGenerator`): an identifier resolves to a project of the
affected set by exact name match, then suffix match `"/" + id` against
project names, then path-suffix match. -/
def specResolvesToAffected (dep : String) (affectedProjects : List String)
    (projects : ProjectsMap) : Prop :=
  ∃ name ∈ affectedProjects,
    name = dep ∨ strEndsWith name ("/" ++ dep) = true ∨
      (∃ pr, projects.find? (fun p => p.1 == name) = some pr ∧
        (pr.2.path = dep ∨ strEndsWith pr.2.path ("/" ++ dep) = true))

/-- Single-project workspace whose name has the suffix `/auth` but whose
path does not: C7's counterexample input. -/
def authProjects : ProjectsMap :=
  [("@example/auth",
    ⟨"@example/auth", "libs/authlib", "/ws/libs/authlib", ⟨[], [], [], []⟩⟩)]

/-! ## Watcher batch processing (`watcher.ts`, `processChanges`) -/

/-- Embedding of `getProjectFromPath(filePath, projects, root)`
(`workspace.ts` lines 121-143): attribute an absolute path to the
project with the longest absolute-path prefix match (`path.sep` is `/`
in this POSIX model). -/
def getProjectFromPath (filePath : String) (projects : ProjectsMap)
    (root : String) : Option String :=
  let absoluteFilePath :=
    if strStartsWith filePath "/" then filePath else jsPathResolve root filePath
  (projects.foldl
    (fun (acc : Option String × Nat) pair =>
      if strStartsWith absoluteFilePath (pair.2.absolutePath ++ "/") then
        if pair.2.absolutePath.data.length > acc.2 then
          (some pair.1, pair.2.absolutePath.data.length)
        else acc
      else acc)
    (none, 0)).1

/-- Modelled from the spec: `isRootConfig` is imported by `watcher.ts`
and `affected.ts` from `workspace.ts`, but its definition is missing from
the provided sources. Spec §6 defines the root-config escalation set as
the workspace manifest, lockfiles, root TS-config variants "and any other
top-level non-directory file", so this models it as: the path lies
directly under the workspace root. -/
def isRootConfig (filePath root : String) : Bool :=
  strStartsWith filePath (root ++ "/") &&
    !((filePath.data.drop ((root ++ "/").data.length)).contains '/')

/-- Embedding of the watcher's `processChanges` (`watcher.ts` lines
33-60), returning the payload handed to `onChange`: `none` when the
callback does not fire, `some projectNames` otherwise. The `for` loop
breaks at the first root-config path (modelled by the boolean
short-circuit flag). Note that the source invokes
`onChange(changedProjects)` with the project set alone: it never builds
the `filesByProject` map that `WatcherOptions.onChange` (`types.ts`
lines 48-54) declares as its second parameter, which is why this model's
payload has no files component. -/
def processChanges (root : String) (projects : ProjectsMap)
    (changedFiles : List String) : Option (List String) :=
  if changedFiles.isEmpty then none
  else
    let scan := changedFiles.foldl
      (fun (acc : Bool × List String) file =>
        if acc.1 then acc
        else if isRootConfig file root then (true, acc.2)
        else
          match getProjectFromPath file projects root with
          | some project => (false, setAdd acc.2 project)
          | none => (false, acc.2))
      (false, [])
    if scan.1 then some (projectKeys projects)
    else if scan.2.length > 0 then some scan.2 else none

/-- Single-project workspace used for the C8 failing input. -/
def aProjects : ProjectsMap :=
  [("A", ⟨"A", "libs/a", "/ws/libs/a", ⟨[], [], [], []⟩⟩)]

end Workgraph

namespace Workgraph

/-! ## Basic lemmas about the string order and the sort -/

theorem strLeAux_total (as bs : List Char) : strLeAux as bs = true ∨ strLeAux bs as = true := by
  induction as generalizing bs with
  | nil => left; rfl
  | cons a as ih =>
    cases bs with
    | nil => right; rfl
    | cons b bs =>
      rcases lt_trichotomy a.toNat b.toNat with h | h | h
      · left; simp [strLeAux, h]
      · rcases ih bs with h2 | h2
        · left; simp [strLeAux, h, h2]
        · right; simp [strLeAux, h.symm, h2]
      · right; simp [strLeAux, h]

theorem strLe_total (a b : String) : strLe a b = true ∨ strLe b a = true :=
  strLeAux_total a.data b.data

theorem strLeAux_trans {as bs cs : List Char} (h1 : strLeAux as bs = true)
    (h2 : strLeAux bs cs = true) : strLeAux as cs = true := by
  induction as generalizing bs cs with
  | nil => rfl
  | cons a as ih =>
    cases bs with
    | nil => simp [strLeAux] at h1
    | cons b bs =>
      cases cs with
      | nil => simp [strLeAux] at h2
      | cons c cs =>
        simp only [strLeAux] at h1 h2 ⊢
        by_cases hab : a.toNat < b.toNat
        · by_cases hbc : b.toNat < c.toNat
          · simp [lt_trans hab hbc]
          · by_cases hcb : c.toNat < b.toNat
            · simp [hbc, hcb] at h2
            · have hbc' : b.toNat = c.toNat := le_antisymm (not_lt.mp hcb) (not_lt.mp hbc)
              simp [hbc' ▸ hab]
        · by_cases hba : b.toNat < a.toNat
          · simp [hab, hba] at h1
          · have hab' : a.toNat = b.toNat := le_antisymm (not_lt.mp hba) (not_lt.mp hab)
            simp only [hab, hba, if_false] at h1
            by_cases hbc : b.toNat < c.toNat
            · simp [hab' ▸ hbc]
            · by_cases hcb : c.toNat < b.toNat
              · simp [hbc, hcb] at h2
              · simp only [hbc, hcb, if_false] at h2
                have hac : ¬ a.toNat < c.toNat := by rw [hab']; exact hbc
                have hca : ¬ c.toNat < a.toNat := hab' ▸ hcb
                simp [hac, hca, ih h1 h2]

theorem strLe_trans {a b c : String} (h1 : strLe a b = true) (h2 : strLe b c = true) :
    strLe a c = true :=
  strLeAux_trans h1 h2

theorem orderedInsertStr_perm (a : String) (l : List String) :
    (orderedInsertStr a l).Perm (a :: l) := by
  induction l with
  | nil => exact List.Perm.refl _
  | cons b l ih =>
    by_cases h : strLe a b
    · simp [orderedInsertStr, h]
    · simp only [orderedInsertStr, h, if_false]
      exact (ih.cons b).trans (List.Perm.swap a b l)

theorem sortStr_perm (l : List String) : (sortStr l).Perm l := by
  induction l with
  | nil => exact List.Perm.refl _
  | cons a l ih =>
    exact (orderedInsertStr_perm a (sortStr l)).trans (ih.cons a)

theorem mem_sortStr {x : String} {l : List String} : x ∈ sortStr l ↔ x ∈ l :=
  (sortStr_perm l).mem_iff

theorem sortStr_nodup {l : List String} (h : l.Nodup) : (sortStr l).Nodup :=
  (sortStr_perm l).nodup_iff.mpr h

theorem orderedInsertStr_pairwise (a : String) (l : List String)
    (h : l.Pairwise (fun x y => strLe x y = true)) :
    (orderedInsertStr a l).Pairwise (fun x y => strLe x y = true) := by
  induction l with
  | nil => simp [orderedInsertStr]
  | cons b l ih =>
    rcases h with _ | ⟨hb, hl⟩
    by_cases hab : strLe a b
    · simp only [orderedInsertStr, hab, if_true]
      refine List.Pairwise.cons ?_ (List.Pairwise.cons hb hl)
      intro y hy
      rcases List.mem_cons.mp hy with rfl | hy
      · exact hab
      · exact strLe_trans hab (hb y hy)
    · simp only [orderedInsertStr, hab, if_false]
      refine List.Pairwise.cons ?_ (ih hl)
      intro y hy
      have hy' := (orderedInsertStr_perm a l).mem_iff.mp hy
      rcases List.mem_cons.mp hy' with rfl | hy'
      · rcases strLe_total b y with h | h
        · exact h
        · exact absurd h hab
      · exact hb y hy'

theorem sortStr_pairwise (l : List String) :
    (sortStr l).Pairwise (fun x y => strLe x y = true) := by
  induction l with
  | nil => simp [sortStr]
  | cons a l ih => exact orderedInsertStr_pairwise a (sortStr l) ih

/-! ## Support lemmas for the wave-planner proof -/

theorem lookupDeps_nodup {m : DepsMap} (h : ∀ p ∈ m, p.2.Nodup) (n : String) :
    (lookupDeps m n).Nodup := by
  unfold lookupDeps
  cases hf : m.find? (fun p => p.1 == n) with
  | none => simp
  | some p => exact h p (List.mem_of_find?_eq_some hf)

theorem length_filter_partition (l : List String) (p q : String → Bool) :
    (l.filter p).length =
      (l.filter (fun a => p a && q a)).length +
        (l.filter (fun a => p a && !q a)).length := by
  induction l with
  | nil => rfl
  | cons a l ih =>
    by_cases hp : p a
    · by_cases hq : q a <;> simp [List.filter_cons, hp, hq, ih] <;> omega
    · simp [List.filter_cons, hp, ih]

theorem length_filter_mem_comm {l₁ l₂ : List String} (h₁ : l₁.Nodup) (h₂ : l₂.Nodup) :
    (l₁.filter (fun a => a ∈ l₂)).length = (l₂.filter (fun a => a ∈ l₁)).length := by
  have e₁ : (l₁.filter (fun a => a ∈ l₂)).length = (l₁.toFinset ∩ l₂.toFinset).card := by
    rw [← List.toFinset_card_of_nodup (h₁.filter _)]
    congr 1
    ext x
    simp [List.mem_toFinset, List.mem_filter, Finset.mem_inter]
  have e₂ : (l₂.filter (fun a => a ∈ l₁)).length = (l₂.toFinset ∩ l₁.toFinset).card := by
    rw [← List.toFinset_card_of_nodup (h₂.filter _)]
    congr 1
    ext x
    simp [List.mem_toFinset, List.mem_filter, Finset.mem_inter]
  rw [e₁, e₂, Finset.inter_comm]

theorem foldl_removeNode_fst (deps : DepsMap) (wv : List String) :
    ∀ (rem : List String) (d : String → Int), rem.Nodup →
      ((wv.foldl (removeNode deps) (rem, d)).1.Nodup ∧
        ∀ x, x ∈ (wv.foldl (removeNode deps) (rem, d)).1 ↔ x ∈ rem ∧ x ∉ wv) := by
  induction wv with
  | nil =>
    intro rem d h
    exact ⟨h, by simp⟩
  | cons node wv ih =>
    intro rem d h
    simp only [List.foldl_cons]
    have hrw : removeNode deps (rem, d) node =
        (rem.erase node,
          fun o => if o ∈ rem.erase node ∧ node ∈ lookupDeps deps o then d o - 1 else d o) :=
      rfl
    rw [hrw]
    obtain ⟨hnd, hmem⟩ := ih (rem.erase node)
      (fun o => if o ∈ rem.erase node ∧ node ∈ lookupDeps deps o then d o - 1 else d o)
      (h.erase node)
    refine ⟨hnd, fun x => ?_⟩
    rw [hmem x, h.mem_erase_iff]
    simp only [List.mem_cons]
    constructor
    · rintro ⟨⟨hxn, hxr⟩, hxw⟩
      exact ⟨hxr, fun hc => hc.elim hxn hxw⟩
    · rintro ⟨hxr, hxw⟩
      exact ⟨⟨fun hc => hxw (Or.inl hc), hxr⟩, fun hc => hxw (Or.inr hc)⟩

theorem foldl_removeNode_snd (deps : DepsMap) (wv : List String) :
    ∀ (rem : List String) (d : String → Int) (o : String), o ∈ rem → o ∉ wv →
      (wv.foldl (removeNode deps) (rem, d)).2 o =
        d o - ((wv.filter (fun n => n ∈ lookupDeps deps o)).length : Int) := by
  induction wv with
  | nil =>
    intro rem d o _ _
    simp
  | cons node wv ih =>
    intro rem d o ho how
    have hne : o ≠ node := fun h => how (h ▸ List.mem_cons_self node wv)
    have ho' : o ∈ rem.erase node := (List.mem_erase_of_ne hne).mpr ho
    have how' : o ∉ wv := fun h => how (List.mem_cons_of_mem node h)
    simp only [List.foldl_cons]
    have hrw : removeNode deps (rem, d) node =
        (rem.erase node,
          fun o => if o ∈ rem.erase node ∧ node ∈ lookupDeps deps o then d o - 1 else d o) :=
      rfl
    rw [hrw]
    rw [ih (rem.erase node)
      (fun o => if o ∈ rem.erase node ∧ node ∈ lookupDeps deps o then d o - 1 else d o)
      o ho' how']
    by_cases hdep : node ∈ lookupDeps deps o
    · simp only [ho', hdep, and_self, if_true, List.filter_cons, decide_eq_true_eq,
        List.length_cons]
      push_cast
      ring
    · simp only [hdep, and_false, if_false, List.filter_cons, decide_eq_true_eq]

theorem exists_no_dep_in (A rem : List String) (deps : DepsMap)
    (hne : rem ≠ []) (hsub : ∀ x ∈ rem, x ∈ A) (hacyc : AcyclicOn A deps) :
    ∃ n, n ∈ rem ∧ ∀ d ∈ lookupDeps deps n, d ∉ rem := by
  by_contra hcon
  push_neg at hcon
  have hstep : ∀ n ∈ rem, ∃ d, d ∈ lookupDeps deps n ∧ d ∈ rem := by
    intro n hn
    obtain ⟨d, hd1, hd2⟩ := (hcon n hn)
    exact ⟨d, hd1, hd2⟩
  classical
  obtain ⟨x₀, hx₀⟩ := List.exists_mem_of_ne_nil rem hne
  set f : String → String :=
    fun n => if h : n ∈ rem then (hstep n h).choose else x₀ with hf_def
  have hf : ∀ n ∈ rem, f n ∈ lookupDeps deps n ∧ f n ∈ rem := by
    intro n hn
    simp only [hf_def, dif_pos hn]
    exact (hstep n hn).choose_spec
  set g : Nat → String := fun k => f^[k] x₀ with hg_def
  have hgs : ∀ m, g (m + 1) = f (g m) := by
    intro m
    simp only [hg_def]
    exact Function.iterate_succ_apply' f m x₀
  have hg : ∀ k, g k ∈ rem := by
    intro k
    induction k with
    | zero => exact hx₀
    | succ k ih =>
      rw [hgs k]
      exact (hf _ ih).2
  have hchain : ∀ m k, Relation.TransGen (edgeIn A deps) (g m) (g (m + k + 1)) := by
    intro m k
    induction k with
    | zero =>
      refine Relation.TransGen.single ?_
      have h1 := hf (g m) (hg m)
      have he : g (m + 0 + 1) = f (g m) := by
        rw [show m + 0 + 1 = m + 1 from by ring, hgs]
      rw [he]
      exact ⟨hsub _ (hg m), hsub _ h1.2, h1.1⟩
    | succ k ih =>
      refine ih.tail ?_
      have h2 := hf (g (m + k + 1)) (hg (m + k + 1))
      have he : g (m + (k + 1) + 1) = f (g (m + k + 1)) := by
        rw [show m + (k + 1) + 1 = (m + k + 1) + 1 from by ring, hgs]
      rw [he]
      exact ⟨hsub _ (hg (m + k + 1)), hsub _ h2.2, h2.1⟩
  have hmaps : ∀ i ∈ Finset.range (rem.toFinset.card + 1), g i ∈ rem.toFinset :=
    fun i _ => List.mem_toFinset.mpr (hg i)
  have hcard : rem.toFinset.card < (Finset.range (rem.toFinset.card + 1)).card := by
    simp
  obtain ⟨i, _, j, _, hij, hgij⟩ :=
    Finset.exists_ne_map_eq_of_card_lt_of_maps_to hcard hmaps
  rcases Nat.lt_or_ge i j with hlt | hge
  · have hc := hchain i (j - i - 1)
    rw [show i + (j - i - 1) + 1 = j from by omega] at hc
    rw [← hgij] at hc
    exact hacyc (g i) hc
  · have hlt' : j < i := lt_of_le_of_ne hge (fun h => hij h.symm)
    have hc := hchain j (i - j - 1)
    rw [show j + (i - j - 1) + 1 = i from by omega] at hc
    rw [hgij] at hc
    exact hacyc (g j) hc

theorem nodup_flatten_not_in_two {ws : List (List String)} (h : ws.flatten.Nodup) :
    ∀ j k (hj : j < ws.length) (hk : k < ws.length), j ≠ k →
      ∀ a, a ∈ ws.get ⟨j, hj⟩ → a ∈ ws.get ⟨k, hk⟩ → False := by
  induction ws with
  | nil =>
    intro j k hj
    simp at hj
  | cons w ws ih =>
    intro j k hj hk hjk a haj hak
    rw [List.flatten_cons, List.nodup_append] at h
    obtain ⟨hw, hws, hdisj⟩ := h
    match j, k with
    | 0, 0 => exact hjk rfl
    | 0, k + 1 =>
      refine hdisj haj (List.mem_flatten.mpr ⟨ws.get ⟨k, ?_⟩, List.get_mem _ _ _, ?_⟩)
      · exact Nat.lt_of_succ_lt_succ hk
      · rw [List.get_cons_succ] at hak
        exact hak
    | j + 1, 0 =>
      refine hdisj hak (List.mem_flatten.mpr ⟨ws.get ⟨j, ?_⟩, List.get_mem _ _ _, ?_⟩)
      · exact Nat.lt_of_succ_lt_succ hj
      · rw [List.get_cons_succ] at haj
        exact haj
    | j + 1, k + 1 =>
      rw [List.get_cons_succ] at haj hak
      exact ih hws j k (Nat.lt_of_succ_lt_succ hj) (Nat.lt_of_succ_lt_succ hk)
        (fun h => hjk (by omega)) a haj hak

theorem planWavesAux_succ_eq (deps : DepsMap) (fuel : Nat) (remaining : List String)
    (inDeg : String → Int) (h1 : remaining.isEmpty = false)
    (h2 : (remaining.filter (fun n => inDeg n == 0)).isEmpty = false) :
    planWavesAux deps (fuel + 1) remaining inDeg =
      (planWavesAux deps fuel
          ((sortStr (remaining.filter (fun n => inDeg n == 0))).foldl
            (removeNode deps) (remaining, inDeg)).1
          ((sortStr (remaining.filter (fun n => inDeg n == 0))).foldl
            (removeNode deps) (remaining, inDeg)).2).map
        (fun ws => sortStr (remaining.filter (fun n => inDeg n == 0)) :: ws) := by
  simp only [planWavesAux, h1, h2, Bool.false_eq_true, if_false]

theorem planWavesAux_spec (deps : DepsMap) (A : List String)
    (hvals : ∀ p ∈ deps, p.2.Nodup) (hacyc : AcyclicOn A deps) :
    ∀ (fuel : Nat) (remaining : List String) (inDeg : String → Int),
      remaining.Nodup → remaining.length ≤ fuel →
      (∀ x ∈ remaining, x ∈ A) →
      (∀ n ∈ remaining,
        inDeg n = (((lookupDeps deps n).filter (fun d => d ∈ remaining)).length : Int)) →
      ∃ ws, planWavesAux deps fuel remaining inDeg = some ws ∧
        ws.flatten.Perm remaining ∧
        (∀ w ∈ ws, w.Pairwise (fun x y => strLe x y = true)) ∧
        (∀ (k : Nat) (hk : k < ws.length), ∀ x ∈ ws.get ⟨k, hk⟩,
          ∀ y, y ∈ lookupDeps deps x → y ∈ remaining →
            ∃ (j : Nat) (hj : j < ws.length), j < k ∧ y ∈ ws.get ⟨j, hj⟩) ∧
        (∀ (k : Nat) (hk : k < ws.length), 0 < k → ∀ x ∈ ws.get ⟨k, hk⟩,
          ∃ y, y ∈ lookupDeps deps x ∧
            ∃ (j : Nat) (hj : j < ws.length), j < k ∧ y ∈ ws.get ⟨j, hj⟩) := by
  intro fuel
  induction fuel with
  | zero =>
    intro remaining inDeg hnd hlen hsub hinv
    have hempty : remaining = [] := List.length_eq_zero.mp (Nat.le_zero.mp hlen)
    subst hempty
    refine ⟨[], by simp [planWavesAux], by simp, by simp, ?_, ?_⟩ <;>
      intro k hk <;> simp at hk
  | succ fuel ih =>
    intro remaining inDeg hnd hlen hsub hinv
    by_cases hrem : remaining = []
    · subst hrem
      refine ⟨[], by simp [planWavesAux], by simp, by simp, ?_, ?_⟩ <;>
        intro k hk <;> simp at hk
    have hremE : remaining.isEmpty = false := List.isEmpty_eq_false.mpr hrem
    set wave := remaining.filter (fun n => inDeg n == 0) with hwave_def
    have hwave_mem : ∀ x, x ∈ wave ↔
        x ∈ remaining ∧ ∀ d ∈ lookupDeps deps x, d ∉ remaining := by
      intro x
      rw [hwave_def, List.mem_filter]
      constructor
      · rintro ⟨hx, hdeg⟩
        refine ⟨hx, ?_⟩
        rw [beq_iff_eq, hinv x hx] at hdeg
        have hlen0 : ((lookupDeps deps x).filter (fun d => d ∈ remaining)).length = 0 := by
          exact_mod_cast hdeg
        rw [List.length_eq_zero, List.filter_eq_nil_iff] at hlen0
        intro d hd hdr
        exact absurd (by simp [hdr] : decide (d ∈ remaining) = true) (hlen0 d hd)
      · rintro ⟨hx, hnone⟩
        refine ⟨hx, ?_⟩
        rw [beq_iff_eq, hinv x hx]
        have hnil : (lookupDeps deps x).filter (fun d => d ∈ remaining) = [] := by
          rw [List.filter_eq_nil_iff]
          intro d hd
          simp [hnone d hd]
        rw [hnil]
        rfl
    obtain ⟨n, hnrem, hnmin⟩ := exists_no_dep_in A remaining deps hrem hsub hacyc
    have hnwave : n ∈ wave := (hwave_mem n).mpr ⟨hnrem, hnmin⟩
    have hwaveE : wave.isEmpty = false :=
      List.isEmpty_eq_false.mpr (fun h => by simp [h] at hnwave)
    have hwave_nodup : wave.Nodup := by
      rw [hwave_def]
      exact hnd.filter _
    have hwave_sub : ∀ x ∈ wave, x ∈ remaining := by
      intro x hx
      rw [hwave_def] at hx
      exact (List.mem_filter.mp hx).1
    set sw := sortStr wave with hsw_def
    have hsw_mem : ∀ x, x ∈ sw ↔ x ∈ wave := by
      intro x
      rw [hsw_def]
      exact mem_sortStr
    have hsw_nodup : sw.Nodup := by
      rw [hsw_def]
      exact sortStr_nodup hwave_nodup
    set st' := sw.foldl (removeNode deps) (remaining, inDeg) with hst_def
    obtain ⟨hnd', hmem'⟩ := foldl_removeNode_fst deps sw remaining inDeg hnd
    have hmemR' : ∀ x, x ∈ st'.1 ↔ x ∈ remaining ∧ x ∉ wave := by
      intro x
      rw [hmem' x]
      constructor
      · rintro ⟨h1, h2⟩
        exact ⟨h1, fun hc => h2 ((hsw_mem x).mpr hc)⟩
      · rintro ⟨h1, h2⟩
        exact ⟨h1, fun hc => h2 ((hsw_mem x).mp hc)⟩
    have hperm' : st'.1.Perm (remaining.filter (fun x => x ∉ wave)) := by
      rw [List.perm_ext_iff_of_nodup hnd' (hnd.filter _)]
      intro a
      rw [hmemR' a]
      constructor
      · rintro ⟨h1, h2⟩
        exact List.mem_filter.mpr ⟨h1, by simpa using h2⟩
      · intro h
        obtain ⟨h1, h2⟩ := List.mem_filter.mp h
        exact ⟨h1, by simpa using h2⟩
    have hlen' : st'.1.length < remaining.length := by
      rw [hperm'.length_eq]
      rw [List.length_filter_lt_length_iff_exists]
      exact ⟨n, hnrem, by simp [hnwave]⟩
    have hinv' : ∀ o ∈ st'.1,
        st'.2 o = (((lookupDeps deps o).filter (fun d => d ∈ st'.1)).length : Int) := by
      intro o ho
      obtain ⟨hor, how⟩ := (hmem' o).mp ho
      rw [hst_def, foldl_removeNode_snd deps sw remaining inDeg o hor how, hinv o hor]
      have hdnodup : (lookupDeps deps o).Nodup := lookupDeps_nodup hvals o
      have hswap : (sw.filter (fun n => n ∈ lookupDeps deps o)).length
          = ((lookupDeps deps o).filter (fun d => d ∈ sw)).length :=
        length_filter_mem_comm hsw_nodup hdnodup
      have hpart := length_filter_partition (lookupDeps deps o)
        (fun d => decide (d ∈ remaining)) (fun d => decide (d ∈ sw))
      have e1 : (lookupDeps deps o).filter
          (fun a => decide (a ∈ remaining) && decide (a ∈ sw))
          = (lookupDeps deps o).filter (fun d => d ∈ sw) := by
        apply List.filter_congr
        intro a _
        by_cases h2 : a ∈ sw
        · simp [h2, hwave_sub _ ((hsw_mem a).mp h2)]
        · simp [h2]
      have e2 : (lookupDeps deps o).filter
          (fun a => decide (a ∈ remaining) && !decide (a ∈ sw))
          = (lookupDeps deps o).filter (fun d => d ∈ st'.1) := by
        apply List.filter_congr
        intro a _
        by_cases h1 : a ∈ remaining <;> by_cases h2 : a ∈ sw <;>
          simp [h1, h2, hmem' a]
      rw [e1, e2] at hpart
      rw [hswap, hpart]
      push_cast
      ring
    obtain ⟨ws', heq', hperm'', hsort', hback', hfirst'⟩ :=
      ih st'.1 st'.2 hnd' (by omega)
        (fun x hx => hsub x ((hmemR' x).mp hx).1) hinv'
    have hComp : planWavesAux deps (fuel + 1) remaining inDeg = some (sw :: ws') := by
      rw [planWavesAux_succ_eq deps fuel remaining inDeg hremE (hwave_def ▸ hwaveE)]
      rw [← hwave_def, ← hsw_def, ← hst_def, heq']
      rfl
    have hPerm : (sw :: ws').flatten.Perm remaining := by
      rw [List.flatten_cons]
      have h1 : (sw ++ ws'.flatten).Perm (wave ++ st'.1) := by
        refine List.Perm.append ?_ hperm''
        rw [hsw_def]
        exact sortStr_perm wave
      refine h1.trans ?_
      have hnodupWS : (wave ++ st'.1).Nodup := by
        rw [List.nodup_append]
        refine ⟨hwave_nodup, hnd', fun a ha hc => ?_⟩
        exact ((hmemR' a).mp hc).2 ha
      rw [List.perm_ext_iff_of_nodup hnodupWS hnd]
      intro a
      rw [List.mem_append, hmemR' a]
      constructor
      · rintro (h | ⟨h, _⟩)
        · exact hwave_sub a h
        · exact h
      · intro h
        by_cases hw : a ∈ wave
        · exact Or.inl hw
        · exact Or.inr ⟨h, hw⟩
    have hSort : ∀ w ∈ sw :: ws', w.Pairwise (fun x y => strLe x y = true) := by
      intro w hw
      rcases List.mem_cons.mp hw with rfl | hw
      · rw [hsw_def]
        exact sortStr_pairwise wave
      · exact hsort' w hw
    have hBack : ∀ (k : Nat) (hk : k < (sw :: ws').length),
        ∀ x ∈ (sw :: ws').get ⟨k, hk⟩, ∀ y, y ∈ lookupDeps deps x → y ∈ remaining →
          ∃ (j : Nat) (hj : j < (sw :: ws').length), j < k ∧
            y ∈ (sw :: ws').get ⟨j, hj⟩ := by
      intro k hk x hx y hyd hyr
      match k, hk with
      | 0, hk =>
        replace hx : x ∈ sw := hx
        exact absurd hyr (((hwave_mem x).mp ((hsw_mem x).mp hx)).2 y hyd)
      | k + 1, hk =>
        rw [List.get_cons_succ] at hx
        by_cases hyw : y ∈ wave
        · refine ⟨0, by simp, Nat.succ_pos k, ?_⟩
          show y ∈ sw
          exact (hsw_mem y).mpr hyw
        · have hyr' : y ∈ st'.1 := (hmemR' y).mpr ⟨hyr, hyw⟩
          obtain ⟨j, hj, hjk, hyj⟩ := hback' k (Nat.lt_of_succ_lt_succ hk) x hx y hyd hyr'
          refine ⟨j + 1, Nat.succ_lt_succ hj, Nat.succ_lt_succ hjk, ?_⟩
          rw [List.get_cons_succ]
          exact hyj
    have hFirst : ∀ (k : Nat) (hk : k < (sw :: ws').length), 0 < k →
        ∀ x ∈ (sw :: ws').get ⟨k, hk⟩,
          ∃ y, y ∈ lookupDeps deps x ∧
            ∃ (j : Nat) (hj : j < (sw :: ws').length), j < k ∧
              y ∈ (sw :: ws').get ⟨j, hj⟩ := by
      intro k hk hkpos x hx
      match k, hk with
      | k + 1, hk =>
        have hx' := hx
        rw [List.get_cons_succ] at hx'
        by_cases hk0 : k = 0
        · subst hk0
          have hxs : x ∈ st'.1 := by
            refine hperm''.mem_iff.mp (List.mem_flatten.mpr ⟨_, ?_, hx'⟩)
            exact List.get_mem _ _ _
          obtain ⟨hxr, hxw⟩ := (hmemR' x).mp hxs
          have hnotmin : ¬ ∀ d ∈ lookupDeps deps x, d ∉ remaining :=
            fun hmin => hxw ((hwave_mem x).mpr ⟨hxr, hmin⟩)
          push_neg at hnotmin
          obtain ⟨y, hyd, hyr⟩ := hnotmin
          obtain ⟨j, hj, hjk, hyj⟩ := hBack 1 hk x hx y hyd hyr
          exact ⟨y, hyd, j, hj, hjk, hyj⟩
        · obtain ⟨y, hyd, j, hj, hjk, hyj⟩ :=
            hfirst' k (Nat.lt_of_succ_lt_succ hk) (Nat.pos_of_ne_zero hk0) x hx'
          refine ⟨y, hyd, j + 1, Nat.succ_lt_succ hj, Nat.succ_lt_succ hjk, ?_⟩
          rw [List.get_cons_succ]
          exact hyj
    exact ⟨sw :: ws', hComp, hPerm, hSort, hBack, hFirst⟩

/-- Rank functions witness acyclicity: if some `rank` strictly decreases
along every induced edge, the induced subgraph is acyclic. Used to
discharge `AcyclicOn` at concrete inputs. -/
theorem acyclicOn_of_rank (A : List String) (deps : DepsMap) (rank : String → Nat)
    (h : ∀ x ∈ A, ∀ y ∈ lookupDeps deps x, y ∈ A → rank y < rank x) :
    AcyclicOn A deps := by
  intro x hx
  have hdesc : ∀ a b, Relation.TransGen (edgeIn A deps) a b → rank b < rank a := by
    intro a b hab
    induction hab with
    | single he => exact h _ he.1 _ he.2.2 he.2.1
    | tail _ he ih => exact lt_trans (h _ he.1 _ he.2.2 he.2.1) ih
  exact lt_irrefl _ (hdesc x x hx)

/-! ## Claim C1 -/

/-- C1: for every affected set `A` and dependency map `deps` whose induced
subgraph on `A` is acyclic, `planWaves(A, deps)` returns (no cycle error) a
wave sequence whose union equals `A`, in which no two projects of the same
wave have a dependency edge between them inside the induced subgraph, every
project in a wave after the first has at least one dependency in some
earlier wave unless it is a source of the induced subgraph, each wave is
sorted lexicographically (`strLe`), and projects in wave `k` depend (within
`A`) only on projects in waves before `k`. -/
theorem c1_planWaves_correct (affected : List String) (deps : DepsMap)
    (hnd : affected.Nodup) (hvals : ∀ p ∈ deps, p.2.Nodup)
    (hacyc : AcyclicOn affected deps) :
    ∃ ws, planWaves affected deps = some ws ∧
      (∀ x, x ∈ ws.flatten ↔ x ∈ affected) ∧
      (∀ w ∈ ws, ∀ x ∈ w, ∀ y ∈ w, x ≠ y → y ∉ lookupDeps deps x) ∧
      (∀ (k : Nat) (hk : k < ws.length), 0 < k → ∀ x ∈ ws.get ⟨k, hk⟩,
        isSourceIn affected deps x ∨
          ∃ y, y ∈ lookupDeps deps x ∧
            ∃ (j : Nat) (hj : j < ws.length), j < k ∧ y ∈ ws.get ⟨j, hj⟩) ∧
      (∀ w ∈ ws, w.Pairwise (fun x y => strLe x y = true)) ∧
      (∀ (k : Nat) (hk : k < ws.length), ∀ x ∈ ws.get ⟨k, hk⟩,
        ∀ y, y ∈ lookupDeps deps x → y ∈ affected →
          ∃ (j : Nat) (hj : j < ws.length), j < k ∧ y ∈ ws.get ⟨j, hj⟩) := by
  by_cases hemp : affected = []
  · subst hemp
    refine ⟨[], by simp [planWaves], by simp, by simp, ?_, by simp, ?_⟩ <;>
      intro k hk <;> simp at hk
  · have hE : affected.isEmpty = false := List.isEmpty_eq_false.mpr hemp
    obtain ⟨ws, heq, hperm, hsort, hback, hfirst⟩ :=
      planWavesAux_spec deps affected hvals hacyc affected.length affected
        (initInDeg affected deps) hnd le_rfl (fun x hx => hx)
        (fun n _ => rfl)
    refine ⟨ws, ?_, ?_, ?_, ?_, hsort, hback⟩
    · simp [planWaves, hE, heq]
    · intro x
      exact hperm.mem_iff
    · intro w hw x hx y hy hxy hydep
      obtain ⟨⟨k, hk⟩, hwk⟩ := List.mem_iff_get.mp hw
      subst hwk
      have hyaff : y ∈ affected :=
        hperm.mem_iff.mp (List.mem_flatten.mpr ⟨_, hw, hy⟩)
      obtain ⟨j, hj, hjk, hyj⟩ := hback k hk x hx y hydep hyaff
      have hnd_flat : ws.flatten.Nodup := hperm.nodup_iff.mpr hnd
      exact nodup_flatten_not_in_two hnd_flat j k hj hk (Nat.ne_of_lt hjk) y hyj hy
    · intro k hk hkpos x hx
      obtain ⟨y, hyd, j, hj, hjk, hyj⟩ := hfirst k hk hkpos x hx
      exact Or.inr ⟨y, hyd, j, hj, hjk, hyj⟩

/-- Witness for C1 at the spec's diamond scenario
(`A→B, A→C, B→D, C→D`, affected = all four). -/
theorem c1_planWaves_correct_witness :
    ∃ ws,
      planWaves ["A", "B", "C", "D"]
          [("A", ["B", "C"]), ("B", ["D"]), ("C", ["D"])] = some ws ∧
      (∀ x, x ∈ ws.flatten ↔ x ∈ ["A", "B", "C", "D"]) ∧
      (∀ w ∈ ws, ∀ x ∈ w, ∀ y ∈ w, x ≠ y →
        y ∉ lookupDeps [("A", ["B", "C"]), ("B", ["D"]), ("C", ["D"])] x) ∧
      (∀ (k : Nat) (hk : k < ws.length), 0 < k → ∀ x ∈ ws.get ⟨k, hk⟩,
        isSourceIn ["A", "B", "C", "D"]
            [("A", ["B", "C"]), ("B", ["D"]), ("C", ["D"])] x ∨
          ∃ y, y ∈ lookupDeps [("A", ["B", "C"]), ("B", ["D"]), ("C", ["D"])] x ∧
            ∃ (j : Nat) (hj : j < ws.length), j < k ∧ y ∈ ws.get ⟨j, hj⟩) ∧
      (∀ w ∈ ws, w.Pairwise (fun x y => strLe x y = true)) ∧
      (∀ (k : Nat) (hk : k < ws.length), ∀ x ∈ ws.get ⟨k, hk⟩,
        ∀ y, y ∈ lookupDeps [("A", ["B", "C"]), ("B", ["D"]), ("C", ["D"])] x →
          y ∈ ["A", "B", "C", "D"] →
          ∃ (j : Nat) (hj : j < ws.length), j < k ∧ y ∈ ws.get ⟨j, hj⟩) :=
  c1_planWaves_correct ["A", "B", "C", "D"]
    [("A", ["B", "C"]), ("B", ["D"]), ("C", ["D"])] (by decide) (by decide)
    (acyclicOn_of_rank _ _
      (fun s => if s = "A" then 2 else if s = "D" then 0 else 1) (by decide))

/-- Sanity check: on the diamond the planner produces the spec's waves
`[[D], [B, C], [A]]` (edges point from dependent to dependency, so `D`
builds first). -/
theorem planWaves_diamond_eval :
    planWaves ["A", "B", "C", "D"]
        [("A", ["B", "C"]), ("B", ["D"]), ("C", ["D"])] =
      some [["D"], ["B", "C"], ["A"]] := by decide

/-! ## Claim C2 -/

theorem lookupDeps_subset {rdeps : DepsMap} {U : List String}
    (hU : ∀ p ∈ rdeps, ∀ d ∈ p.2, d ∈ U) (n : String) :
    ∀ d ∈ lookupDeps rdeps n, d ∈ U := by
  intro d hd
  unfold lookupDeps at hd
  cases hf : rdeps.find? (fun p => p.1 == n) with
  | none =>
    rw [hf] at hd
    simp at hd
  | some p =>
    rw [hf] at hd
    exact hU p (List.mem_of_find?_eq_some hf) d hd

theorem sum_filter_drop_current (f : String → Nat) :
    ∀ (l : List String) (affected : List String) (current : String),
      l.Nodup → current ∈ l → current ∉ affected →
      ((l.filter (fun x => x ∉ affected)).map f).sum =
        f current +
          ((l.filter (fun x => x ∉ affected ++ [current])).map f).sum := by
  intro l
  induction l with
  | nil =>
    intro affected current _ hcur
    simp at hcur
  | cons a l ih =>
    intro affected current hnd hcur hnot
    rcases List.mem_cons.mp hcur with rfl | hcur'
    · have hal : current ∉ l := (List.nodup_cons.mp hnd).1
      rw [List.filter_cons, List.filter_cons, if_pos (by simpa using hnot),
        if_neg (by simp)]
      simp only [List.map_cons, List.sum_cons]
      congr 1
      have hsame : l.filter (fun x => x ∉ affected) =
          l.filter (fun x => x ∉ affected ++ [current]) := by
        apply List.filter_congr
        intro x hx
        have hxc : x ≠ current := fun h => hal (h ▸ hx)
        simp [List.mem_append, hxc]
      rw [hsame]
    · have hnd' := (List.nodup_cons.mp hnd).2
      have hac : a ≠ current := fun h => (List.nodup_cons.mp hnd).1 (h ▸ hcur')
      rw [List.filter_cons, List.filter_cons]
      by_cases ha : a ∈ affected
      · rw [if_neg (by simp [ha]), if_neg (by simp [ha])]
        exact ih affected current hnd' hcur' hnot
      · rw [if_pos (by simpa using ha), if_pos (by simp [ha, hac])]
        simp only [List.map_cons, List.sum_cons]
        rw [ih affected current hnd' hcur' hnot]
        ring

theorem getAffectedAux_cons_mem (rdeps : DepsMap) (fuel : Nat)
    (affected rest : List String) (current : String) (h : current ∈ affected) :
    getAffectedAux rdeps (fuel + 1) affected (current :: rest) =
      getAffectedAux rdeps fuel affected rest := by
  simp only [getAffectedAux]
  rw [if_pos h]

theorem getAffectedAux_cons_not_mem (rdeps : DepsMap) (fuel : Nat)
    (affected rest : List String) (current : String) (h : current ∉ affected) :
    getAffectedAux rdeps (fuel + 1) affected (current :: rest) =
      getAffectedAux rdeps fuel (affected ++ [current])
        (rest ++ (lookupDeps rdeps current).filter
          (fun d => d ∉ affected ++ [current])) := by
  simp only [getAffectedAux]
  rw [if_neg h]

theorem getAffectedAux_spec (rdeps : DepsMap) (U : List String)
    (hU : ∀ p ∈ rdeps, ∀ d ∈ p.2, d ∈ U) :
    ∀ (fuel : Nat) (affected queue : List String),
      (∀ x ∈ queue, x ∈ U) →
      bfsMeasure U rdeps affected queue ≤ fuel →
      (∀ x ∈ affected, ∀ y ∈ lookupDeps rdeps x, y ∈ affected ∨ y ∈ queue) →
      ∃ A, getAffectedAux rdeps fuel affected queue = some A ∧
        (∀ x ∈ affected, x ∈ A) ∧
        (∀ x ∈ queue, x ∈ A) ∧
        (∀ x ∈ A, ∀ y ∈ lookupDeps rdeps x, y ∈ A) ∧
        (∀ B : String → Prop, (∀ x ∈ affected, B x) → (∀ x ∈ queue, B x) →
          (∀ x, B x → ∀ y ∈ lookupDeps rdeps x, B y) → ∀ a ∈ A, B a) := by
  intro fuel
  induction fuel with
  | zero =>
    intro affected queue hq hmeas hclo
    have hqe : queue = [] := by
      refine List.length_eq_zero.mp ?_
      unfold bfsMeasure at hmeas
      omega
    subst hqe
    refine ⟨affected, by simp [getAffectedAux], fun x hx => hx, by simp, ?_, ?_⟩
    · intro x hx y hy
      rcases hclo x hx y hy with h | h
      · exact h
      · simp at h
    · intro B hBa _ _ a ha
      exact hBa a ha
  | succ fuel ih =>
    intro affected queue hq hmeas hclo
    cases queue with
    | nil =>
      refine ⟨affected, by simp [getAffectedAux], fun x hx => hx, by simp, ?_, ?_⟩
      · intro x hx y hy
        rcases hclo x hx y hy with h | h
        · exact h
        · simp at h
      · intro B hBa _ _ a ha
        exact hBa a ha
    | cons current rest =>
      by_cases hcur : current ∈ affected
      · have hmeas' : bfsMeasure U rdeps affected rest ≤ fuel := by
          unfold bfsMeasure at hmeas ⊢
          simp only [List.length_cons] at hmeas
          omega
        have hclo' : ∀ x ∈ affected, ∀ y ∈ lookupDeps rdeps x,
            y ∈ affected ∨ y ∈ rest := by
          intro x hx y hy
          rcases hclo x hx y hy with h | h
          · exact Or.inl h
          · rcases List.mem_cons.mp h with rfl | h
            · exact Or.inl hcur
            · exact Or.inr h
        obtain ⟨A, heq, hP1, hP2, hP3, hP4⟩ :=
          ih affected rest (fun x hx => hq x (List.mem_cons_of_mem _ hx)) hmeas' hclo'
        refine ⟨A, ?_, hP1, ?_, hP3, ?_⟩
        · rw [getAffectedAux_cons_mem rdeps fuel affected rest current hcur]
          exact heq
        · intro x hx
          rcases List.mem_cons.mp hx with rfl | hx
          · exact hP1 _ hcur
          · exact hP2 _ hx
        · intro B hBa hBq hBc
          exact hP4 B hBa (fun x hx => hBq x (List.mem_cons_of_mem _ hx)) hBc
      · have hcurU : current ∈ U := hq current (List.mem_cons_self _ _)
        have hcurD : current ∈ U.dedup := List.mem_dedup.mpr hcurU
        have hlenpush :
            ((lookupDeps rdeps current).filter
              (fun d => d ∉ affected ++ [current])).length ≤
              (lookupDeps rdeps current).length :=
          List.length_filter_le _ _
        have hdrop := sum_filter_drop_current
          (fun x => 1 + (lookupDeps rdeps x).length) U.dedup affected current
          (List.nodup_dedup U) hcurD hcur
        have hmeas' : bfsMeasure U rdeps (affected ++ [current])
            (rest ++ (lookupDeps rdeps current).filter
              (fun d => d ∉ affected ++ [current])) ≤ fuel := by
          unfold bfsMeasure at hmeas ⊢
          rw [hdrop] at hmeas
          simp only [List.length_cons, List.length_append] at hmeas ⊢
          omega
        have hq' : ∀ x ∈ rest ++ (lookupDeps rdeps current).filter
            (fun d => d ∉ affected ++ [current]), x ∈ U := by
          intro x hx
          rcases List.mem_append.mp hx with hx | hx
          · exact hq x (List.mem_cons_of_mem _ hx)
          · exact lookupDeps_subset hU current x (List.mem_filter.mp hx).1
        have hclo' : ∀ x ∈ affected ++ [current], ∀ y ∈ lookupDeps rdeps x,
            y ∈ affected ++ [current] ∨
              y ∈ rest ++ (lookupDeps rdeps current).filter
                (fun d => d ∉ affected ++ [current]) := by
          intro x hx y hy
          rcases List.mem_append.mp hx with hx | hx
          · rcases hclo x hx y hy with h | h
            · exact Or.inl (List.mem_append.mpr (Or.inl h))
            · rcases List.mem_cons.mp h with rfl | h
              · exact Or.inl (List.mem_append.mpr (Or.inr (List.mem_singleton.mpr rfl)))
              · exact Or.inr (List.mem_append.mpr (Or.inl h))
          · have hxc : x = current := List.mem_singleton.mp hx
            subst hxc
            by_cases hya : y ∈ affected ++ [x]
            · exact Or.inl hya
            · refine Or.inr (List.mem_append.mpr (Or.inr ?_))
              exact List.mem_filter.mpr ⟨hy, by simpa using hya⟩
        obtain ⟨A, heq, hP1, hP2, hP3, hP4⟩ :=
          ih (affected ++ [current])
            (rest ++ (lookupDeps rdeps current).filter
              (fun d => d ∉ affected ++ [current])) hq' hmeas' hclo'
        refine ⟨A, ?_, ?_, ?_, hP3, ?_⟩
        · rw [getAffectedAux_cons_not_mem rdeps fuel affected rest current hcur]
          exact heq
        · intro x hx
          exact hP1 x (List.mem_append.mpr (Or.inl hx))
        · intro x hx
          rcases List.mem_cons.mp hx with rfl | hx
          · exact hP1 x (List.mem_append.mpr (Or.inr (List.mem_singleton.mpr rfl)))
          · exact hP2 x (List.mem_append.mpr (Or.inl hx))
        · intro B hBa hBq hBc
          refine hP4 B ?_ ?_ hBc
          · intro x hx
            rcases List.mem_append.mp hx with hx | hx
            · exact hBa x hx
            · exact List.mem_singleton.mp hx ▸ hBq current (List.mem_cons_self _ _)
          · intro x hx
            rcases List.mem_append.mp hx with hx | hx
            · exact hBq x (List.mem_cons_of_mem _ hx)
            · exact hBc current (hBq current (List.mem_cons_self _ _)) x
                (List.mem_filter.mp hx).1

/-- C2: for every seed set `S` and reverse-edge map `rdeps`,
`getAffectedProjects(S, rdeps)` returns (within its proven-sufficient
fuel) the smallest set `A ⊇ S` closed under
`x ∈ A ∧ y ∈ rdeps[x] ⇒ y ∈ A`: it contains `S`, is closed, and is
contained in every closed superset of `S`. -/
theorem c2_getAffected_smallest_closed (S : List String) (rdeps : DepsMap) :
    ∃ A, getAffectedProjects S rdeps = some A ∧
      (∀ s ∈ S, s ∈ A) ∧
      (∀ x ∈ A, ∀ y ∈ lookupDeps rdeps x, y ∈ A) ∧
      (∀ B : String → Prop, (∀ s ∈ S, B s) →
        (∀ x, B x → ∀ y ∈ lookupDeps rdeps x, B y) → ∀ a ∈ A, B a) := by
  have hU : ∀ p ∈ rdeps, ∀ d ∈ p.2, d ∈ S ++ (rdeps.map Prod.snd).flatten := by
    intro p hp d hd
    refine List.mem_append.mpr (Or.inr ?_)
    exact List.mem_flatten.mpr ⟨p.2, List.mem_map.mpr ⟨p, hp, rfl⟩, hd⟩
  have hq : ∀ x ∈ S, x ∈ S ++ (rdeps.map Prod.snd).flatten :=
    fun x hx => List.mem_append.mpr (Or.inl hx)
  have hmeas : bfsMeasure (S ++ (rdeps.map Prod.snd).flatten) rdeps [] S ≤
      affectedFuel S rdeps := by
    unfold bfsMeasure affectedFuel
    have hfil : (S ++ (rdeps.map Prod.snd).flatten).dedup.filter
        (fun x => x ∉ ([] : List String)) =
        (S ++ (rdeps.map Prod.snd).flatten).dedup := by
      apply List.filter_eq_self.mpr
      intro a _
      simp
    rw [hfil]
  obtain ⟨A, heq, _, hP2, hP3, hP4⟩ :=
    getAffectedAux_spec rdeps (S ++ (rdeps.map Prod.snd).flatten) hU
      (affectedFuel S rdeps) [] S hq hmeas (by simp)
  exact ⟨A, heq, hP2, hP3, fun B hBs hBc => hP4 B (by simp) hBs hBc⟩

/-- Witness for C2 at the spec's diamond scenario: seeds `{D}`, reverse
edges `D↦{B,C}`, `B↦{A}`, `C↦{A}`. -/
theorem c2_getAffected_smallest_closed_witness :
    ∃ A, getAffectedProjects ["D"]
        [("D", ["B", "C"]), ("B", ["A"]), ("C", ["A"])] = some A ∧
      (∀ s ∈ ["D"], s ∈ A) ∧
      (∀ x ∈ A, ∀ y ∈ lookupDeps [("D", ["B", "C"]), ("B", ["A"]), ("C", ["A"])] x,
        y ∈ A) ∧
      (∀ B : String → Prop, (∀ s ∈ ["D"], B s) →
        (∀ x, B x →
          ∀ y ∈ lookupDeps [("D", ["B", "C"]), ("B", ["A"]), ("C", ["A"])] x, B y) →
        ∀ a ∈ A, B a) :=
  c2_getAffected_smallest_closed ["D"] [("D", ["B", "C"]), ("B", ["A"]), ("C", ["A"])]

/-- Sanity check: the BFS visits the diamond's affected set in breadth
order, `{D} ↦ [D, B, C, A]`. -/
theorem getAffected_diamond_eval :
    getAffectedProjects ["D"] [("D", ["B", "C"]), ("B", ["A"]), ("C", ["A"])] =
      some ["D", "B", "C", "A"] := by decide

/-! ## Claim C3 -/

theorem mem_setAdd {s : List String} {v x : String} :
    x ∈ setAdd s v ↔ x ∈ s ∨ x = v := by
  unfold setAdd
  by_cases h : v ∈ s
  · rw [if_pos h]
    constructor
    · exact Or.inl
    · rintro (h1 | rfl)
      · exact h1
      · exact h
  · rw [if_neg h]
    simp

theorem mem_unionKeys {a b : List String} {x : String} :
    x ∈ unionKeys a b ↔ x ∈ a ∨ x ∈ b := by
  unfold unionKeys
  rw [List.mem_append]
  constructor
  · rintro (h | h)
    · exact Or.inl h
    · exact Or.inr (List.mem_filter.mp h).1
  · rintro (h | h)
    · exact Or.inl h
    · by_cases ha : x ∈ a
      · exact Or.inl ha
      · exact Or.inr (List.mem_filter.mpr ⟨h, by simpa using ha⟩)

theorem mem_allDepsKeys {p : Project} {x : String} :
    x ∈ allDepsKeys p ↔
      x ∈ p.packageJson.dependencies ∨ x ∈ p.packageJson.devDependencies ∨
        x ∈ p.packageJson.peerDependencies ∨ x ∈ p.packageJson.optionalDependencies := by
  unfold allDepsKeys
  rw [mem_unionKeys, mem_unionKeys, mem_unionKeys]
  tauto

theorem mapAddToSet_keys (m : DepsMap) (k v : String) :
    (mapAddToSet m k v).map Prod.fst = m.map Prod.fst := by
  unfold mapAddToSet
  rw [List.map_map]
  apply List.map_congr_left
  intro p _
  by_cases h : p.1 = k <;> simp [h]

theorem lookupDeps_cons_pos (q : String × List String) (m : DepsMap) (a : String)
    (h : q.1 = a) : lookupDeps (q :: m) a = q.2 := by
  unfold lookupDeps
  rw [List.find?_cons_of_pos _ (by simp [h])]

theorem lookupDeps_cons_neg (q : String × List String) (m : DepsMap) (a : String)
    (h : q.1 ≠ a) : lookupDeps (q :: m) a = lookupDeps m a := by
  unfold lookupDeps
  rw [List.find?_cons_of_neg _ (by simp [h])]

theorem mem_lookupDeps_mapAddToSet {m : DepsMap} {k v a x : String} :
    x ∈ lookupDeps (mapAddToSet m k v) a ↔
      x ∈ lookupDeps m a ∨ (a = k ∧ x = v ∧ k ∈ m.map Prod.fst) := by
  induction m with
  | nil => simp [mapAddToSet, lookupDeps]
  | cons p m ih =>
    have hcons : mapAddToSet (p :: m) k v =
        (if p.1 = k then (p.1, setAdd p.2 v) else p) :: mapAddToSet m k v := rfl
    rw [hcons]
    by_cases hpk : p.1 = k
    · rw [if_pos hpk]
      by_cases hpa : p.1 = a
      · rw [lookupDeps_cons_pos (p.1, setAdd p.2 v) (mapAddToSet m k v) a hpa,
          lookupDeps_cons_pos p m a hpa]
        rw [mem_setAdd]
        have hak : a = k := by rw [← hpa, hpk]
        have hkp : k = p.1 := hpk.symm
        simp [hak, hkp]
      · have hak : a ≠ k := fun h => hpa (by rw [hpk, ← h])
        rw [lookupDeps_cons_neg (p.1, setAdd p.2 v) (mapAddToSet m k v) a hpa,
          lookupDeps_cons_neg p m a hpa, ih]
        simp [hak]
    · rw [if_neg hpk]
      by_cases hpa : p.1 = a
      · have hak : a ≠ k := fun h => hpk (by rw [hpa, h])
        rw [lookupDeps_cons_pos p (mapAddToSet m k v) a hpa,
          lookupDeps_cons_pos p m a hpa]
        simp [hak]
      · rw [lookupDeps_cons_neg p (mapAddToSet m k v) a hpa,
          lookupDeps_cons_neg p m a hpa, ih]
        have hkp : (k ∈ (p :: m).map Prod.fst) ↔ k ∈ m.map Prod.fst := by
          rw [List.map_cons, List.mem_cons]
          constructor
          · rintro (h | h)
            · exact absurd h.symm hpk
            · exact h
          · exact Or.inr
        rw [hkp]

theorem foldl_addEdge_char (keys : List String) (name : String) :
    ∀ (ds : List String) (st : DepsMap × DepsMap),
      ((ds.foldl (fun st2 d => addEdge keys st2 name d) st).1.map Prod.fst
          = st.1.map Prod.fst) ∧
      ((ds.foldl (fun st2 d => addEdge keys st2 name d) st).2.map Prod.fst
          = st.2.map Prod.fst) ∧
      (∀ a x, x ∈ lookupDeps (ds.foldl (fun st2 d => addEdge keys st2 name d) st).1 a ↔
        x ∈ lookupDeps st.1 a ∨
          (a = name ∧ x ∈ ds ∧ x ∈ keys ∧ name ∈ st.1.map Prod.fst)) ∧
      (∀ b x, x ∈ lookupDeps (ds.foldl (fun st2 d => addEdge keys st2 name d) st).2 b ↔
        x ∈ lookupDeps st.2 b ∨
          (x = name ∧ b ∈ ds ∧ b ∈ keys ∧ b ∈ st.2.map Prod.fst)) := by
  intro ds
  induction ds with
  | nil =>
    intro st
    refine ⟨rfl, rfl, fun a x => ?_, fun b x => ?_⟩ <;> simp
  | cons d ds ih =>
    intro st
    simp only [List.foldl_cons]
    by_cases hd : d ∈ keys
    · have hstep : addEdge keys st name d =
          (mapAddToSet st.1 name d, mapAddToSet st.2 d name) := by
        unfold addEdge
        rw [if_pos hd]
      rw [hstep]
      obtain ⟨hk1, hk2, hc1, hc2⟩ :=
        ih (mapAddToSet st.1 name d, mapAddToSet st.2 d name)
      refine ⟨?_, ?_, fun a x => ?_, fun b x => ?_⟩
      · rw [hk1, mapAddToSet_keys]
      · rw [hk2, mapAddToSet_keys]
      · rw [hc1 a x, mem_lookupDeps_mapAddToSet]
        simp only [mapAddToSet_keys, List.mem_cons]
        constructor
        · rintro ((h | ⟨rfl, rfl, hnk⟩) | ⟨rfl, hxds, hxk, hnk⟩)
          · exact Or.inl h
          · exact Or.inr ⟨rfl, Or.inl rfl, hd, hnk⟩
          · exact Or.inr ⟨rfl, Or.inr hxds, hxk, hnk⟩
        · rintro (h | ⟨rfl, (rfl | hxds), hxk, hnk⟩)
          · exact Or.inl (Or.inl h)
          · exact Or.inl (Or.inr ⟨rfl, rfl, hnk⟩)
          · exact Or.inr ⟨rfl, hxds, hxk, hnk⟩
      · rw [hc2 b x, mem_lookupDeps_mapAddToSet]
        simp only [mapAddToSet_keys, List.mem_cons]
        constructor
        · rintro ((h | ⟨rfl, rfl, hbk⟩) | ⟨rfl, hbds, hbk, hbk2⟩)
          · exact Or.inl h
          · exact Or.inr ⟨rfl, Or.inl rfl, hd, hbk⟩
          · exact Or.inr ⟨rfl, Or.inr hbds, hbk, hbk2⟩
        · rintro (h | ⟨rfl, (rfl | hbds), hbk, hbk2⟩)
          · exact Or.inl (Or.inl h)
          · exact Or.inl (Or.inr ⟨rfl, rfl, hbk2⟩)
          · exact Or.inr ⟨rfl, hbds, hbk, hbk2⟩
    · have hstep : addEdge keys st name d = st := by
        unfold addEdge
        rw [if_neg hd]
      rw [hstep]
      obtain ⟨hk1, hk2, hc1, hc2⟩ := ih st
      refine ⟨hk1, hk2, fun a x => ?_, fun b x => ?_⟩
      · rw [hc1 a x]
        simp only [List.mem_cons]
        constructor
        · rintro (h | ⟨rfl, hxds, hxk, hnk⟩)
          · exact Or.inl h
          · exact Or.inr ⟨rfl, Or.inr hxds, hxk, hnk⟩
        · rintro (h | ⟨rfl, (rfl | hxds), hxk, hnk⟩)
          · exact Or.inl h
          · exact absurd hxk hd
          · exact Or.inr ⟨rfl, hxds, hxk, hnk⟩
      · rw [hc2 b x]
        simp only [List.mem_cons]
        constructor
        · rintro (h | ⟨rfl, hbds, hbk, hbk2⟩)
          · exact Or.inl h
          · exact Or.inr ⟨rfl, Or.inr hbds, hbk, hbk2⟩
        · rintro (h | ⟨rfl, (rfl | hbds), hbk, hbk2⟩)
          · exact Or.inl h
          · exact absurd hbk hd
          · exact Or.inr ⟨rfl, hbds, hbk, hbk2⟩

theorem foldl_addProjectEdges_char (keys : List String) :
    ∀ (pairs : List (String × Project)) (st : DepsMap × DepsMap),
      ((pairs.foldl (addProjectEdges keys) st).1.map Prod.fst = st.1.map Prod.fst) ∧
      ((pairs.foldl (addProjectEdges keys) st).2.map Prod.fst = st.2.map Prod.fst) ∧
      (∀ a x, x ∈ lookupDeps (pairs.foldl (addProjectEdges keys) st).1 a ↔
        x ∈ lookupDeps st.1 a ∨
          ∃ pr, pr ∈ pairs ∧ pr.1 = a ∧ x ∈ allDepsKeys pr.2 ∧ x ∈ keys ∧
            a ∈ st.1.map Prod.fst) ∧
      (∀ b x, x ∈ lookupDeps (pairs.foldl (addProjectEdges keys) st).2 b ↔
        x ∈ lookupDeps st.2 b ∨
          ∃ pr, pr ∈ pairs ∧ pr.1 = x ∧ b ∈ allDepsKeys pr.2 ∧ b ∈ keys ∧
            b ∈ st.2.map Prod.fst) := by
  intro pairs
  induction pairs with
  | nil =>
    intro st
    refine ⟨rfl, rfl, fun a x => ?_, fun b x => ?_⟩ <;> simp
  | cons pr pairs ih =>
    intro st
    simp only [List.foldl_cons]
    obtain ⟨gk1, gk2, gc1, gc2⟩ := foldl_addEdge_char keys pr.1 (allDepsKeys pr.2) st
    obtain ⟨hk1, hk2, hc1, hc2⟩ := ih (addProjectEdges keys st pr)
    have heq : addProjectEdges keys st pr =
        (allDepsKeys pr.2).foldl (fun st2 d => addEdge keys st2 pr.1 d) st := rfl
    refine ⟨?_, ?_, fun a x => ?_, fun b x => ?_⟩
    · rw [hk1, heq, gk1]
    · rw [hk2, heq, gk2]
    · rw [hc1 a x, heq, gc1 a x, gk1]
      constructor
      · rintro ((h | ⟨rfl, hds, hk, hnk⟩) | ⟨q, hq, rfl, hds, hk, hnk⟩)
        · exact Or.inl h
        · exact Or.inr ⟨pr, List.mem_cons_self _ _, rfl, hds, hk, hnk⟩
        · exact Or.inr ⟨q, List.mem_cons_of_mem _ hq, rfl, hds, hk, hnk⟩
      · rintro (h | ⟨q, hq, rfl, hds, hk, hnk⟩)
        · exact Or.inl (Or.inl h)
        · rcases List.mem_cons.mp hq with rfl | hq
          · exact Or.inl (Or.inr ⟨rfl, hds, hk, hnk⟩)
          · exact Or.inr ⟨q, hq, rfl, hds, hk, hnk⟩
    · rw [hc2 b x, heq, gc2 b x, gk2]
      constructor
      · rintro ((h | ⟨rfl, hds, hk, hnk⟩) | ⟨q, hq, rfl, hds, hk, hnk⟩)
        · exact Or.inl h
        · exact Or.inr ⟨pr, List.mem_cons_self _ _, rfl, hds, hk, hnk⟩
        · exact Or.inr ⟨q, List.mem_cons_of_mem _ hq, rfl, hds, hk, hnk⟩
      · rintro (h | ⟨q, hq, rfl, hds, hk, hnk⟩)
        · exact Or.inl (Or.inl h)
        · rcases List.mem_cons.mp hq with rfl | hq
          · exact Or.inl (Or.inr ⟨rfl, hds, hk, hnk⟩)
          · exact Or.inr ⟨q, hq, rfl, hds, hk, hnk⟩

theorem lookupDeps_init (projects : ProjectsMap) (a : String) :
    lookupDeps (projects.map (fun p => (p.1, []))) a = [] := by
  induction projects with
  | nil => rfl
  | cons p ps ih =>
    unfold lookupDeps
    by_cases h : p.1 = a
    · simp only [List.map_cons]
      rw [List.find?_cons_of_pos _ (by simp [h])]
    · simp only [List.map_cons]
      rw [List.find?_cons_of_neg _ (by simp [h])]
      unfold lookupDeps at ih
      exact ih

theorem lookupDeps_eq_of_mem_nodup {m : DepsMap}
    (hnd : (m.map Prod.fst).Nodup) {p : String × List String} (hp : p ∈ m) :
    lookupDeps m p.1 = p.2 := by
  induction m with
  | nil => simp at hp
  | cons q m ih =>
    rcases List.mem_cons.mp hp with rfl | hp
    · unfold lookupDeps
      rw [List.find?_cons_of_pos _ (by simp)]
    · have hq : q.1 ≠ p.1 := by
        intro h
        have : p.1 ∈ m.map Prod.fst := List.mem_map.mpr ⟨p, hp, rfl⟩
        rw [List.map_cons] at hnd
        exact (List.nodup_cons.mp hnd).1 (h ▸ this)
      unfold lookupDeps
      rw [List.find?_cons_of_neg _ (by simp [hq])]
      exact ih (by rw [List.map_cons] at hnd; exact (List.nodup_cons.mp hnd).2) hp

/-- Membership characterization of the built graph's forward map. -/
theorem buildGraph_deps_char (projects : ProjectsMap) (A B : String) :
    B ∈ lookupDeps (buildGraph projects).deps A ↔
      B ∈ projectKeys projects ∧
        ∃ pr, pr ∈ projects ∧ pr.1 = A ∧ B ∈ allDepsKeys pr.2 := by
  obtain ⟨hk1, hk2, hc1, hc2⟩ :=
    foldl_addProjectEdges_char (projectKeys projects) projects
      (projects.map (fun p => (p.1, [])), projects.map (fun p => (p.1, [])))
  show B ∈ lookupDeps (projects.foldl (addProjectEdges (projectKeys projects))
    (projects.map (fun p => (p.1, [])), projects.map (fun p => (p.1, [])))).1 A ↔ _
  rw [hc1 A B, lookupDeps_init]
  have hkeys : (projects.map (fun p => (p.1, ([] : List String)))).map Prod.fst =
      projectKeys projects := by
    rw [List.map_map]
    rfl
  rw [hkeys]
  simp only [List.not_mem_nil, false_or]
  constructor
  · rintro ⟨pr, hpr, rfl, hds, hBk, _⟩
    exact ⟨hBk, pr, hpr, rfl, hds⟩
  · rintro ⟨hBk, pr, hpr, rfl, hds⟩
    exact ⟨pr, hpr, rfl, hds, hBk, List.mem_map.mpr ⟨pr, hpr, rfl⟩⟩

/-- Membership characterization of the built graph's reverse map. -/
theorem buildGraph_rdeps_char (projects : ProjectsMap) (A B : String) :
    A ∈ lookupDeps (buildGraph projects).rdeps B ↔
      B ∈ projectKeys projects ∧
        ∃ pr, pr ∈ projects ∧ pr.1 = A ∧ B ∈ allDepsKeys pr.2 := by
  obtain ⟨hk1, hk2, hc1, hc2⟩ :=
    foldl_addProjectEdges_char (projectKeys projects) projects
      (projects.map (fun p => (p.1, [])), projects.map (fun p => (p.1, [])))
  show A ∈ lookupDeps (projects.foldl (addProjectEdges (projectKeys projects))
    (projects.map (fun p => (p.1, [])), projects.map (fun p => (p.1, [])))).2 B ↔ _
  rw [hc2 B A, lookupDeps_init]
  have hkeys : (projects.map (fun p => (p.1, ([] : List String)))).map Prod.fst =
      projectKeys projects := by
    rw [List.map_map]
    rfl
  rw [hkeys]
  simp only [List.not_mem_nil, false_or]
  constructor
  · rintro ⟨pr, hpr, rfl, hds, hBk, _⟩
    exact ⟨hBk, pr, hpr, rfl, hds⟩
  · rintro ⟨hBk, pr, hpr, rfl, hds⟩
    exact ⟨pr, hpr, rfl, hds, hBk, hBk⟩

theorem buildGraph_deps_keys (projects : ProjectsMap) :
    (buildGraph projects).deps.map Prod.fst = projectKeys projects := by
  obtain ⟨hk1, _, _, _⟩ :=
    foldl_addProjectEdges_char (projectKeys projects) projects
      (projects.map (fun p => (p.1, [])), projects.map (fun p => (p.1, [])))
  show (projects.foldl (addProjectEdges (projectKeys projects))
    (projects.map (fun p => (p.1, [])), projects.map (fun p => (p.1, [])))).1.map
      Prod.fst = _
  rw [hk1, List.map_map]
  rfl

theorem buildGraph_rdeps_keys (projects : ProjectsMap) :
    (buildGraph projects).rdeps.map Prod.fst = projectKeys projects := by
  obtain ⟨_, hk2, _, _⟩ :=
    foldl_addProjectEdges_char (projectKeys projects) projects
      (projects.map (fun p => (p.1, [])), projects.map (fun p => (p.1, [])))
  show (projects.foldl (addProjectEdges (projectKeys projects))
    (projects.map (fun p => (p.1, [])), projects.map (fun p => (p.1, [])))).2.map
      Prod.fst = _
  rw [hk2, List.map_map]
  rfl

/-- C3: for every projects map (with the unique names guaranteed by the
loader), the graph returned by `buildGraph` satisfies
`B ∈ deps[A] ⇔ A ∈ rdeps[B]`; every name appearing as a key or value of
`deps` or `rdeps` is a key of the projects map; and an edge `A → B`
exists exactly when `B` is a key of the projects map and `B` appears in
the union of `A`'s four dependency maps (so external names create no
edges, and a declared self-dependency yields a self-loop). -/
theorem c3_buildGraph_invariants (projects : ProjectsMap)
    (hkeys : (projectKeys projects).Nodup) :
    (∀ A B, B ∈ lookupDeps (buildGraph projects).deps A ↔
        A ∈ lookupDeps (buildGraph projects).rdeps B) ∧
    (∀ p ∈ (buildGraph projects).deps, p.1 ∈ projectKeys projects ∧
        ∀ v ∈ p.2, v ∈ projectKeys projects) ∧
    (∀ p ∈ (buildGraph projects).rdeps, p.1 ∈ projectKeys projects ∧
        ∀ v ∈ p.2, v ∈ projectKeys projects) ∧
    (∀ A B, B ∈ lookupDeps (buildGraph projects).deps A ↔
        (B ∈ projectKeys projects ∧
          ∃ pr, pr ∈ projects ∧ pr.1 = A ∧
            (B ∈ pr.2.packageJson.dependencies ∨
              B ∈ pr.2.packageJson.devDependencies ∨
              B ∈ pr.2.packageJson.peerDependencies ∨
              B ∈ pr.2.packageJson.optionalDependencies))) := by
  refine ⟨?_, ?_, ?_, ?_⟩
  · intro A B
    rw [buildGraph_deps_char, buildGraph_rdeps_char]
  · intro p hp
    have hpk : p.1 ∈ projectKeys projects := by
      rw [← buildGraph_deps_keys projects]
      exact List.mem_map.mpr ⟨p, hp, rfl⟩
    refine ⟨hpk, fun v hv => ?_⟩
    have hlook : lookupDeps (buildGraph projects).deps p.1 = p.2 :=
      lookupDeps_eq_of_mem_nodup (by rw [buildGraph_deps_keys]; exact hkeys) hp
    have := (buildGraph_deps_char projects p.1 v).mp (hlook ▸ hv)
    exact this.1
  · intro p hp
    have hpk : p.1 ∈ projectKeys projects := by
      rw [← buildGraph_rdeps_keys projects]
      exact List.mem_map.mpr ⟨p, hp, rfl⟩
    refine ⟨hpk, fun v hv => ?_⟩
    have hlook : lookupDeps (buildGraph projects).rdeps p.1 = p.2 :=
      lookupDeps_eq_of_mem_nodup (by rw [buildGraph_rdeps_keys]; exact hkeys) hp
    obtain ⟨_, pr, hpr, hpr1, _⟩ :=
      (buildGraph_rdeps_char projects v p.1).mp (hlook ▸ hv)
    rw [← hpr1]
    exact List.mem_map.mpr ⟨pr, hpr, rfl⟩
  · intro A B
    rw [buildGraph_deps_char]
    constructor
    · rintro ⟨hBk, pr, hpr, rfl, hds⟩
      exact ⟨hBk, pr, hpr, rfl, mem_allDepsKeys.mp hds⟩
    · rintro ⟨hBk, pr, hpr, rfl, hds⟩
      exact ⟨hBk, pr, hpr, rfl, mem_allDepsKeys.mpr hds⟩

/-- Witness for C3 at the concrete workspace `exProjects` (self-loop and
external dependency included). -/
theorem c3_buildGraph_invariants_witness :
    (∀ A B, B ∈ lookupDeps (buildGraph exProjects).deps A ↔
        A ∈ lookupDeps (buildGraph exProjects).rdeps B) ∧
    (∀ p ∈ (buildGraph exProjects).deps, p.1 ∈ projectKeys exProjects ∧
        ∀ v ∈ p.2, v ∈ projectKeys exProjects) ∧
    (∀ p ∈ (buildGraph exProjects).rdeps, p.1 ∈ projectKeys exProjects ∧
        ∀ v ∈ p.2, v ∈ projectKeys exProjects) ∧
    (∀ A B, B ∈ lookupDeps (buildGraph exProjects).deps A ↔
        (B ∈ projectKeys exProjects ∧
          ∃ pr, pr ∈ exProjects ∧ pr.1 = A ∧
            (B ∈ pr.2.packageJson.dependencies ∨
              B ∈ pr.2.packageJson.devDependencies ∨
              B ∈ pr.2.packageJson.peerDependencies ∨
              B ∈ pr.2.packageJson.optionalDependencies))) :=
  c3_buildGraph_invariants exProjects (by decide)

/-- Sanity check: the witness workspace yields the expected edge sets,
with the self-loop kept and the external `left-pad` ignored. -/
theorem buildGraph_eval :
    (buildGraph exProjects).deps =
      [("@x/app", ["@x/lib", "@x/app"]), ("@x/lib", [])] := by decide

/-! ## Claim C4 -/

theorem length_filter_mono_pred {l : List String} {p q : String → Bool}
    (h : ∀ x ∈ l, p x = true → q x = true) :
    (l.filter p).length ≤ (l.filter q).length := by
  induction l with
  | nil => simp
  | cons a l ih =>
    have ih' := ih (fun x hx => h x (List.mem_cons_of_mem _ hx))
    rw [List.filter_cons, List.filter_cons]
    by_cases hp : p a
    · rw [if_pos hp, if_pos (h a (List.mem_cons_self _ _) hp)]
      simpa using ih'
    · rw [if_neg hp]
      by_cases hq : q a
      · rw [if_pos hq]
        exact le_trans ih' (by simp)
      · rw [if_neg hq]
        exact ih'

theorem whiteCount_mono {keys : List String} {c c' : String → Option Nat}
    (h : ∀ x, c' x = c x ∨ (c x = some WHITE ∧ c' x = some BLACK)) :
    whiteCount keys c' ≤ whiteCount keys c := by
  apply length_filter_mono_pred
  intro x _ hx
  rw [decide_eq_true_eq] at hx
  rcases h x with h1 | ⟨h1, h2⟩
  · rw [← h1]
    simpa using hx
  · rw [h2] at hx
    simp [BLACK, WHITE] at hx

theorem whiteCount_setColor {keys : List String} (hnd : keys.Nodup)
    {c : String → Option Nat} {n : String} {v : Nat} (hn : n ∈ keys)
    (hcn : c n = some WHITE) (hv : v ≠ WHITE) :
    whiteCount keys (setColor c n v) + 1 = whiteCount keys c := by
  induction keys with
  | nil => simp at hn
  | cons a keys ih =>
    unfold whiteCount
    rw [List.filter_cons, List.filter_cons]
    rcases List.mem_cons.mp hn with rfl | hn'
    · have hnew : ¬ (setColor c n v n = some WHITE) := by
        unfold setColor
        rw [if_pos rfl]
        simp [hv]
      rw [if_neg (by simpa using hnew), if_pos (by simpa using hcn)]
      have hrest : keys.filter (fun x => decide (setColor c n v x = some WHITE)) =
          keys.filter (fun x => decide (c x = some WHITE)) := by
        apply List.filter_congr
        intro x hx
        have hxn : x ≠ n := fun h => (List.nodup_cons.mp hnd).1 (h ▸ hx)
        unfold setColor
        rw [if_neg hxn]
      rw [hrest]
      simp
    · have hna : n ≠ a := fun h => (List.nodup_cons.mp hnd).1 (h ▸ hn')
      have hsc : setColor c n v a = c a := by
        unfold setColor
        rw [if_neg (fun h => hna h.symm)]
      have ih' := ih (List.nodup_cons.mp hnd).2 hn'
      unfold whiteCount at ih'
      by_cases ha : c a = some WHITE
      · rw [if_pos (by simp [hsc, ha]), if_pos (by simpa using ha)]
        simp only [List.length_cons]
        omega
      · rw [if_neg (by simp [hsc, ha]), if_neg (by simpa using ha)]
        exact ih'

theorem whiteCount_pos {keys : List String} {c : String → Option Nat} {n : String}
    (hn : n ∈ keys) (hcn : c n = some WHITE) : 1 ≤ whiteCount keys c := by
  unfold whiteCount
  have : n ∈ keys.filter (fun x => decide (c x = some WHITE)) :=
    List.mem_filter.mpr ⟨hn, by simpa using hcn⟩
  exact List.length_pos.mpr (List.ne_nil_of_mem this)

theorem gray_dep_cycle {keys : List String} {deps : DepsMap} {path : List String}
    {node dep : String} (hnode : node ∈ keys) (hdepk : dep ∈ keys)
    (hdep : dep ∈ lookupDeps deps node)
    (hreach : ∀ x ∈ path, Relation.TransGen (edgeIn keys deps) x node)
    (hmem : dep ∈ path ++ [node]) :
    Relation.TransGen (edgeIn keys deps) dep dep := by
  have hedge : edgeIn keys deps node dep := ⟨hnode, hdepk, hdep⟩
  rcases List.mem_append.mp hmem with h | h
  · exact (hreach dep h).tail hedge
  · rw [List.mem_singleton] at h
    subst h
    exact Relation.TransGen.single hedge

theorem setColor_eq (c : String → Option Nat) (n : String) (v : Nat) (x : String) :
    setColor c n v x = if x = n then some v else c x := rfl

theorem dfs_acyclic_spec (deps : DepsMap) (keys : List String) (hnd : keys.Nodup)
    (hacyc : AcyclicOn keys deps) :
    ∀ (fuel : Nat) (node : String) (path : List String) (st : DfsState),
      node ∈ keys → st.1 node = some WHITE →
      (∀ x, st.1 x = some GRAY ↔ x ∈ path) →
      (∀ x, (st.1 x).isSome ↔ x ∈ keys) →
      (∀ x ∈ path, Relation.TransGen (edgeIn keys deps) x node) →
      whiteCount keys st.1 ≤ fuel →
      (dfs deps fuel node path st).2 = st.2 ∧
      (∀ x, (dfs deps fuel node path st).1 x = some GRAY ↔ x ∈ path) ∧
      (∀ x, ((dfs deps fuel node path st).1 x).isSome ↔ x ∈ keys) ∧
      (∀ x, (dfs deps fuel node path st).1 x = st.1 x ∨
        (st.1 x = some WHITE ∧ (dfs deps fuel node path st).1 x = some BLACK)) ∧
      whiteCount keys (dfs deps fuel node path st).1 + 1 ≤ whiteCount keys st.1 := by
  intro fuel
  induction fuel with
  | zero =>
    intro node path st hnode hwhite _ _ _ hfuel
    exact absurd hfuel (by have := whiteCount_pos hnode hwhite; omega)
  | succ fuel ih =>
    intro node path st hnode hwhite hgray hdom hreach hfuel
    have hnodepath : node ∉ path := by
      intro h
      have := (hgray node).mpr h
      rw [hwhite] at this
      simp [WHITE, GRAY] at this
    have hG1 : ∀ x, setColor st.1 node GRAY x = some GRAY ↔ x ∈ path ++ [node] := by
      intro x
      unfold setColor
      by_cases hx : x = node
      · subst hx
        rw [if_pos rfl]
        simp
      · rw [if_neg hx]
        rw [hgray x]
        simp [hx]
    have hD1 : ∀ x, ((setColor st.1 node GRAY x).isSome ↔ x ∈ keys) := by
      intro x
      unfold setColor
      by_cases hx : x = node
      · subst hx
        rw [if_pos rfl]
        simp [hnode]
      · rw [if_neg hx]
        exact hdom x
    have hW1 : whiteCount keys (setColor st.1 node GRAY) + 1 = whiteCount keys st.1 :=
      whiteCount_setColor hnd hnode hwhite (by simp [GRAY, WHITE])
    have hreach' : ∀ dep, dep ∈ lookupDeps deps node → dep ∈ keys →
        ∀ x ∈ path ++ [node], Relation.TransGen (edgeIn keys deps) x dep := by
      intro dep hdep hdepk x hx
      have hedge : edgeIn keys deps node dep := ⟨hnode, hdepk, hdep⟩
      rcases List.mem_append.mp hx with h | h
      · exact (hreach x h).tail hedge
      · rw [List.mem_singleton] at h
        subst h
        exact Relation.TransGen.single hedge
    have hfold : ∀ (ds : List String), (∀ d ∈ ds, d ∈ lookupDeps deps node) →
        ∀ (st2 : DfsState),
        st2.2 = st.2 →
        (∀ x, st2.1 x = some GRAY ↔ x ∈ path ++ [node]) →
        (∀ x, (st2.1 x).isSome ↔ x ∈ keys) →
        whiteCount keys st2.1 + 1 ≤ whiteCount keys st.1 →
        (∀ x, st2.1 x = setColor st.1 node GRAY x ∨
          (setColor st.1 node GRAY x = some WHITE ∧ st2.1 x = some BLACK)) →
        (ds.foldl (dfsStep (fun d p s => dfs deps fuel d p s) (path ++ [node])) st2).2
            = st.2 ∧
        (∀ x, (ds.foldl (dfsStep (fun d p s => dfs deps fuel d p s) (path ++ [node]))
            st2).1 x = some GRAY ↔ x ∈ path ++ [node]) ∧
        (∀ x, ((ds.foldl (dfsStep (fun d p s => dfs deps fuel d p s) (path ++ [node]))
            st2).1 x).isSome ↔ x ∈ keys) ∧
        whiteCount keys
            ((ds.foldl (dfsStep (fun d p s => dfs deps fuel d p s) (path ++ [node]))
              st2).1) + 1 ≤ whiteCount keys st.1 ∧
        (∀ x, (ds.foldl (dfsStep (fun d p s => dfs deps fuel d p s) (path ++ [node]))
            st2).1 x = setColor st.1 node GRAY x ∨
          (setColor st.1 node GRAY x = some WHITE ∧
            (ds.foldl (dfsStep (fun d p s => dfs deps fuel d p s) (path ++ [node]))
              st2).1 x = some BLACK)) := by
      intro ds
      induction ds with
      | nil =>
        intro _ st2 h2 hg hd hw hm
        exact ⟨h2, hg, hd, hw, hm⟩
      | cons d ds ihds =>
        intro hds st2 h2 hg hd hw hm
        simp only [List.foldl_cons]
        by_cases hgr : st2.1 d = some GRAY
        · exact absurd
            (gray_dep_cycle hnode ((hd d).mp (by rw [hgr]; rfl))
              (hds d (List.mem_cons_self _ _)) hreach ((hg d).mp hgr))
            (hacyc d)
        · by_cases hwh : st2.1 d = some WHITE
          · have hstep : dfsStep (fun d p s => dfs deps fuel d p s) (path ++ [node]) st2 d
                = dfs deps fuel d (path ++ [node]) st2 := by
              unfold dfsStep
              rw [if_neg hgr, if_pos hwh]
            rw [hstep]
            have hdk : d ∈ keys := (hd d).mp (by rw [hwh]; rfl)
            obtain ⟨q2, qg, qd, qm, qw⟩ :=
              ih d (path ++ [node]) st2 hdk hwh hg hd
                (hreach' d (hds d (List.mem_cons_self _ _)) hdk) (by omega)
            refine ihds (fun e he => hds e (List.mem_cons_of_mem _ he))
              (dfs deps fuel d (path ++ [node]) st2) (by rw [q2, h2]) qg qd
              (by omega) ?_
            intro x
            rcases qm x with h1 | ⟨h1, h2'⟩
            · rw [h1]
              exact hm x
            · rcases hm x with h3 | ⟨h3, h4⟩
              · rw [h3] at h1
                exact Or.inr ⟨h1, h2'⟩
              · rw [h4] at h1
                simp [WHITE, BLACK] at h1
          · have hstep : dfsStep (fun d p s => dfs deps fuel d p s) (path ++ [node]) st2 d
                = st2 := by
              unfold dfsStep
              rw [if_neg hgr, if_neg hwh]
            rw [hstep]
            exact ihds (fun e he => hds e (List.mem_cons_of_mem _ he)) st2 h2 hg hd hw hm
    obtain ⟨f2, fg, fd, fw, fm⟩ :=
      hfold (lookupDeps deps node) (fun d hd => hd) (setColor st.1 node GRAY, st.2)
        rfl hG1 hD1
        (by show whiteCount keys (setColor st.1 node GRAY) + 1 ≤ whiteCount keys st.1
            omega)
        (fun x => Or.inl rfl)
    refine ⟨f2, ?_, ?_, ?_, ?_⟩
    · intro x
      show setColor ((lookupDeps deps node).foldl
          (dfsStep (fun d p s => dfs deps fuel d p s) (path ++ [node]))
          (setColor st.1 node GRAY, st.2)).1 node BLACK x = some GRAY ↔ x ∈ path
      rw [setColor_eq]
      by_cases hx : x = node
      · subst hx
        rw [if_pos rfl]
        constructor
        · intro h
          simp [BLACK, GRAY] at h
        · intro h
          exact absurd h hnodepath
      · rw [if_neg hx]
        rw [fg x]
        simp [hx]
    · intro x
      show (setColor ((lookupDeps deps node).foldl
          (dfsStep (fun d p s => dfs deps fuel d p s) (path ++ [node]))
          (setColor st.1 node GRAY, st.2)).1 node BLACK x).isSome ↔ x ∈ keys
      rw [setColor_eq]
      by_cases hx : x = node
      · subst hx
        rw [if_pos rfl]
        simp [hnode]
      · rw [if_neg hx]
        exact fd x
    · intro x
      show setColor ((lookupDeps deps node).foldl
          (dfsStep (fun d p s => dfs deps fuel d p s) (path ++ [node]))
          (setColor st.1 node GRAY, st.2)).1 node BLACK x = st.1 x ∨
        (st.1 x = some WHITE ∧
          setColor ((lookupDeps deps node).foldl
            (dfsStep (fun d p s => dfs deps fuel d p s) (path ++ [node]))
            (setColor st.1 node GRAY, st.2)).1 node BLACK x = some BLACK)
      rw [setColor_eq]
      by_cases hx : x = node
      · subst hx
        rw [if_pos rfl]
        exact Or.inr ⟨hwhite, rfl⟩
      · rw [if_neg hx]
        rcases fm x with h1 | ⟨h1, h2⟩
        · rw [setColor_eq] at h1
          rw [if_neg hx] at h1
          exact Or.inl h1
        · rw [setColor_eq] at h1
          rw [if_neg hx] at h1
          exact Or.inr ⟨h1, h2⟩
    · show whiteCount keys
          (setColor ((lookupDeps deps node).foldl
            (dfsStep (fun d p s => dfs deps fuel d p s) (path ++ [node]))
            (setColor st.1 node GRAY, st.2)).1 node BLACK) + 1 ≤ whiteCount keys st.1
      have hmono : whiteCount keys
          (setColor ((lookupDeps deps node).foldl
            (dfsStep (fun d p s => dfs deps fuel d p s) (path ++ [node]))
            (setColor st.1 node GRAY, st.2)).1 node BLACK) ≤
          whiteCount keys ((lookupDeps deps node).foldl
            (dfsStep (fun d p s => dfs deps fuel d p s) (path ++ [node]))
            (setColor st.1 node GRAY, st.2)).1 := by
        apply length_filter_mono_pred
        intro x _ hx
        rw [decide_eq_true_eq] at hx
        rw [setColor_eq] at hx
        by_cases hxn : x = node
        · rw [if_pos hxn] at hx
          simp [BLACK, WHITE] at hx
        · rw [if_neg hxn] at hx
          simpa using hx
      omega

theorem detectCycles_none_of_acyclic (g : DependencyGraph)
    (hnd : (projectKeys g.projects).Nodup) (hacyc : AcyclicGraph g) :
    detectCycles g = none := by
  have houter : ∀ (ks : List String), (∀ n ∈ ks, n ∈ projectKeys g.projects) →
      ∀ (st : (String → Option Nat) × List (List String)),
      st.2 = [] →
      (∀ x, ¬ st.1 x = some GRAY) →
      (∀ x, (st.1 x).isSome ↔ x ∈ projectKeys g.projects) →
      (ks.foldl
        (fun (st : (String → Option Nat) × List (List String)) name =>
          if st.1 name = some WHITE then
            dfs g.deps (projectKeys g.projects).length name [] st
          else st) st).2 = [] ∧
      (∀ x, ¬ (ks.foldl
        (fun (st : (String → Option Nat) × List (List String)) name =>
          if st.1 name = some WHITE then
            dfs g.deps (projectKeys g.projects).length name [] st
          else st) st).1 x = some GRAY) ∧
      (∀ x, ((ks.foldl
        (fun (st : (String → Option Nat) × List (List String)) name =>
          if st.1 name = some WHITE then
            dfs g.deps (projectKeys g.projects).length name [] st
          else st) st).1 x).isSome ↔ x ∈ projectKeys g.projects) := by
    intro ks
    induction ks with
    | nil =>
      intro _ st h2 hg hd
      exact ⟨h2, hg, hd⟩
    | cons name ks ihks =>
      intro hks st h2 hg hd
      simp only [List.foldl_cons]
      by_cases hwh : st.1 name = some WHITE
      · rw [if_pos hwh]
        obtain ⟨q2, qg, qd, _, qw⟩ :=
          dfs_acyclic_spec g.deps (projectKeys g.projects) hnd hacyc
            (projectKeys g.projects).length name [] st
            (hks name (List.mem_cons_self _ _)) hwh
            (by intro x; rw [List.mem_nil_iff]; exact ⟨fun h => hg x h, False.elim⟩)
            hd (by simp)
            (le_trans (List.length_filter_le _ _) le_rfl)
        refine ihks (fun n hn => hks n (List.mem_cons_of_mem _ hn))
          (dfs g.deps (projectKeys g.projects).length name [] st)
          (by rw [q2, h2]) ?_ qd
        intro x h
        rw [qg x] at h
        simp at h
      · rw [if_neg hwh]
        exact ihks (fun n hn => hks n (List.mem_cons_of_mem _ hn)) st h2 hg hd
  have hinit : ∀ x, ((fun x => if x ∈ projectKeys g.projects then some WHITE else none) x).isSome
      ↔ x ∈ projectKeys g.projects := by
    intro x
    by_cases hx : x ∈ projectKeys g.projects <;> simp [hx]
  have hinitg : ∀ x, ¬ (fun x => if x ∈ projectKeys g.projects then some WHITE else none) x
      = some GRAY := by
    intro x
    by_cases hx : x ∈ projectKeys g.projects <;> simp [hx, WHITE, GRAY]
  obtain ⟨h2, _, _⟩ := houter (projectKeys g.projects) (fun n hn => hn)
    ((fun x => if x ∈ projectKeys g.projects then some WHITE else none), []) rfl hinitg hinit
  show (if 0 < ((projectKeys g.projects).foldl
      (fun (st : (String → Option Nat) × List (List String)) name =>
        if st.1 name = some WHITE then
          dfs g.deps (projectKeys g.projects).length name [] st
        else st)
      ((fun x => if x ∈ projectKeys g.projects then some WHITE else none), [])).2.length
    then _ else none) = none
  rw [h2]
  simp

/-- C4 counterexample: on the acyclic two-project workspace
`{B→A}`, `detectCycles` returns `null` (`none`), not the empty list the
claim promises for acyclic graphs. -/
theorem c4_detectCycles_counterexample :
    AcyclicGraph (buildGraph lineProjects) ∧
    detectCycles (buildGraph lineProjects) = none ∧
    detectCycles (buildGraph lineProjects) ≠ some [] :=
  ⟨acyclicOn_of_rank _ _ (fun s => if s = "B" then 1 else 0) (by decide),
    by decide, by decide⟩

/-- C4 (amended): `detectCycles` returns a list of cycles, and `null`
(`none`) — not the empty list — when the graph is acyclic; for the graph
`{A→B, B→C, C→A}` it returns a non-empty list containing a rotation of
`[A, B, C, A]`; and whenever the result is non-null the plan command
refuses to plan. -/
theorem c4_detectCycles_amended :
    (∀ (g : DependencyGraph), (projectKeys g.projects).Nodup → AcyclicGraph g →
      detectCycles g = none) ∧
    (∃ cs, detectCycles (buildGraph triProjects) = some cs ∧ cs ≠ [] ∧
      ∃ c ∈ cs, c = ["A", "B", "C", "A"] ∨ c = ["B", "C", "A", "B"] ∨
        c = ["C", "A", "B", "C"]) ∧
    (∀ (projects : ProjectsMap) (changed : List String) (cs : List (List String)),
      detectCycles (buildGraph projects) = some cs →
      planCommand projects changed = .fatalCycles) := by
  refine ⟨fun g h1 h2 => detectCycles_none_of_acyclic g h1 h2, ?_, ?_⟩
  · refine ⟨[["A", "B", "C", "A"]], by decide, by decide, ?_⟩
    exact ⟨["A", "B", "C", "A"], by decide, Or.inl rfl⟩
  · intro projects changed cs hcs
    simp only [planCommand]
    rw [hcs]

/-- Witness for the amended C4: the acyclic-input conjunct applied at the
concrete `lineProjects` workspace. -/
theorem c4_detectCycles_amended_witness :
    detectCycles (buildGraph lineProjects) = none :=
  c4_detectCycles_amended.1 (buildGraph lineProjects) (by decide)
    (acyclicOn_of_rank _ _ (fun s => if s = "B" then 1 else 0) (by decide))

/-! ## Claims C5 and C10 -/

theorem foldl_runProject_spec (projects : ProjectsMap) (bc : Project → String)
    (run : String → RunOutcome) (wIdx tW tS : Nat) (par : Bool) :
    ∀ (wave : List String) (st : ExecState),
      (∀ n ∈ wave, (projects.find? (fun p => p.1 == n)).isSome) →
      ((wave.foldl (runProject projects bc run false wIdx tW tS par) st).results.map
          (fun r => r.project) = st.results.map (fun r => r.project) ++ wave) ∧
      ((wave.foldl (runProject projects bc run false wIdx tW tS par) st).overallSuccess
          = (st.overallSuccess && wave.all (fun n => (run n).success))) ∧
      ((wave.foldl (runProject projects bc run false wIdx tW tS par) st).starts.map
          (fun i => i.project) = st.starts.map (fun i => i.project) ++ wave) ∧
      ((wave.foldl (runProject projects bc run false wIdx tW tS par) st).completes.map
          (fun r => r.project) = st.completes.map (fun r => r.project) ++ wave) := by
  intro wave
  induction wave with
  | nil =>
    intro st _
    simp
  | cons n wave ihw =>
    intro st hall
    obtain ⟨pr, hpr⟩ := Option.isSome_iff_exists.mp (hall n (List.mem_cons_self _ _))
    have hstep : runProject projects bc run false wIdx tW tS par st n =
        { results := st.results ++
            [⟨n, (run n).success, (run n).duration, (run n).output, (run n).error⟩],
          overallSuccess := st.overallSuccess && (run n).success,
          currentStep := st.currentStep + 1,
          starts := st.starts ++
            [⟨n, wIdx + 1, tW, st.currentStep + 1, tS, par⟩],
          completes := st.completes ++
            [⟨n, (run n).success, (run n).duration, (run n).output, (run n).error⟩] } := by
      unfold runProject
      rw [hpr]
      rfl
    rw [List.foldl_cons, hstep]
    obtain ⟨h1, h2, h3, h4⟩ := ihw _ (fun m hm => hall m (List.mem_cons_of_mem _ hm))
    refine ⟨?_, ?_, ?_, ?_⟩
    · rw [h1]
      simp
    · rw [h2]
      simp [Bool.and_assoc]
    · rw [h3]
      simp
    · rw [h4]
      simp

theorem execWaves_fail_spec (projects : ProjectsMap) (bc : Project → String)
    (run : String → RunOutcome) (tW tS : Nat) :
    ∀ (ws : List (List String)) (k : Nat) (hk : k < ws.length) (wIdx : Nat)
      (st : ExecState),
      (∀ w ∈ ws, ∀ n ∈ w, (projects.find? (fun p => p.1 == n)).isSome) →
      st.overallSuccess = true →
      (∀ (j : Nat) (hj : j < ws.length), j < k →
        ∀ y ∈ ws.get ⟨j, hj⟩, (run y).success = true) →
      (∃ x ∈ ws.get ⟨k, hk⟩, (run x).success = false) →
      (execWaves projects bc run false tW tS ws wIdx st).overallSuccess = false ∧
      ((execWaves projects bc run false tW tS ws wIdx st).results.map
          (fun r => r.project)
        = st.results.map (fun r => r.project) ++ (ws.take (k + 1)).flatten) ∧
      ((execWaves projects bc run false tW tS ws wIdx st).starts.map
          (fun i => i.project)
        = st.starts.map (fun i => i.project) ++ (ws.take (k + 1)).flatten) ∧
      ((execWaves projects bc run false tW tS ws wIdx st).completes.map
          (fun r => r.project)
        = st.completes.map (fun r => r.project) ++ (ws.take (k + 1)).flatten) := by
  intro ws
  induction ws with
  | nil =>
    intro k hk
    simp at hk
  | cons w ws ihws =>
    intro k hk wIdx st hall hok hearlier hfail
    obtain ⟨h1, h2, h3, h4⟩ :=
      foldl_runProject_spec projects bc run wIdx tW tS (decide (w.length > 1)) w st
        (hall w (List.mem_cons_self _ _))
    simp only [execWaves]
    match k, hk with
    | 0, hk =>
      replace hfail : ∃ x ∈ w, (run x).success = false := hfail
      have hallw : w.all (fun n => (run n).success) = false := by
        cases hw : w.all (fun n => (run n).success) with
        | true =>
          obtain ⟨x, hx, hxf⟩ := hfail
          have := List.all_eq_true.mp hw x hx
          rw [hxf] at this
          simp at this
        | false => rfl
      have hov : (w.foldl (runProject projects bc run false wIdx tW tS
          (decide (w.length > 1))) st).overallSuccess = false := by
        rw [h2, hallw, Bool.and_false]
      rw [if_neg (by rw [hov]; exact Bool.false_ne_true)]
      refine ⟨hov, ?_, ?_, ?_⟩ <;> simp [h1, h3, h4]
    | k + 1, hk =>
      have hwall : w.all (fun n => (run n).success) = true := by
        rw [List.all_eq_true]
        intro x hx
        exact hearlier 0 (by simp) (Nat.succ_pos k) x hx
      have hov : (w.foldl (runProject projects bc run false wIdx tW tS
          (decide (w.length > 1))) st).overallSuccess = true := by
        rw [h2, hwall, Bool.and_true, hok]
      rw [if_pos (by rw [hov])]
      obtain ⟨q1, q2, q3, q4⟩ :=
        ihws k (Nat.lt_of_succ_lt_succ hk) (wIdx + 1) _
          (fun v hv n hn => hall v (List.mem_cons_of_mem _ hv) n hn) hov
          (fun j hj hjk y hy =>
            hearlier (j + 1) (Nat.succ_lt_succ hj) (Nat.succ_lt_succ hjk) y
              (by rw [List.get_cons_succ]; exact hy))
          (by rw [List.get_cons_succ] at hfail; exact hfail)
      refine ⟨q1, ?_, ?_, ?_⟩
      · rw [q2, h1]
        simp [List.take_cons, List.flatten_cons]
      · rw [q3, h3]
        simp [List.take_cons, List.flatten_cons]
      · rw [q4, h4]
        simp [List.take_cons, List.flatten_cons]

/-- C5: when a project of wave `k` exits nonzero (and earlier waves
succeeded, so wave `k` actually runs, and every planned name is a known
project), every other project of wave `k` still runs to completion
(result and `onComplete` entry), no project of a later wave is started,
the returned result has `success = false`, and the results contain
entries exactly for the projects of waves up to and including `k`. -/
theorem c5_executePlan_failure_short_circuit (waves : List (List String))
    (projects : ProjectsMap) (bc : Project → String) (run : String → RunOutcome)
    (k : Nat) (hk : k < waves.length)
    (hall : ∀ w ∈ waves, ∀ n ∈ w, (projects.find? (fun p => p.1 == n)).isSome)
    (hearlier : ∀ (j : Nat) (hj : j < waves.length), j < k →
      ∀ y ∈ waves.get ⟨j, hj⟩, (run y).success = true)
    (hfail : ∃ x ∈ waves.get ⟨k, hk⟩, (run x).success = false) :
    (executePlan waves projects bc run false).1.success = false ∧
    (∀ n, (∃ r ∈ (executePlan waves projects bc run false).1.results,
        r.project = n) ↔ n ∈ (waves.take (k + 1)).flatten) ∧
    (∀ y ∈ waves.get ⟨k, hk⟩,
      (∃ r ∈ (executePlan waves projects bc run false).1.results, r.project = y) ∧
      (∃ c ∈ (executePlan waves projects bc run false).2.2, c.project = y)) ∧
    (∀ i ∈ (executePlan waves projects bc run false).2.1,
      i.project ∈ (waves.take (k + 1)).flatten) := by
  obtain ⟨ho, hr, hs, hc⟩ :=
    execWaves_fail_spec projects bc run waves.length ((waves.map List.length).sum)
      waves k hk 0 ⟨[], true, 0, [], []⟩ hall rfl hearlier hfail
  have hwavein : ∀ y ∈ waves.get ⟨k, hk⟩, y ∈ (waves.take (k + 1)).flatten := by
    intro y hy
    rw [List.mem_flatten]
    refine ⟨waves.get ⟨k, hk⟩, ?_, hy⟩
    rw [List.take_succ]
    refine List.mem_append.mpr (Or.inr ?_)
    rw [List.getElem?_eq_getElem hk]
    simp [List.get_eq_getElem]
  refine ⟨ho, ?_, ?_, ?_⟩
  · intro n
    have : (∃ r ∈ (executePlan waves projects bc run false).1.results, r.project = n) ↔
        n ∈ (executePlan waves projects bc run false).1.results.map
          (fun r => r.project) := by
      rw [List.mem_map]
    rw [this]
    show n ∈ (execWaves projects bc run false waves.length ((waves.map List.length).sum)
      waves 0 ⟨[], true, 0, [], []⟩).results.map (fun r => r.project) ↔ _
    rw [hr]
    simp
  · intro y hy
    constructor
    · have : y ∈ (executePlan waves projects bc run false).1.results.map
          (fun r => r.project) := by
        show y ∈ (execWaves projects bc run false waves.length
          ((waves.map List.length).sum) waves 0 ⟨[], true, 0, [], []⟩).results.map
            (fun r => r.project)
        rw [hr]
        simpa using hwavein y hy
      obtain ⟨r, h1, h2⟩ := List.mem_map.mp this
      exact ⟨r, h1, h2⟩
    · have : y ∈ (executePlan waves projects bc run false).2.2.map
          (fun r => r.project) := by
        show y ∈ (execWaves projects bc run false waves.length
          ((waves.map List.length).sum) waves 0 ⟨[], true, 0, [], []⟩).completes.map
            (fun r => r.project)
        rw [hc]
        simpa using hwavein y hy
      obtain ⟨r, h1, h2⟩ := List.mem_map.mp this
      exact ⟨r, h1, h2⟩
  · intro i hi
    have : i.project ∈ (executePlan waves projects bc run false).2.1.map
        (fun j => j.project) := List.mem_map.mpr ⟨i, hi, rfl⟩
    rw [show (executePlan waves projects bc run false).2.1 =
      (execWaves projects bc run false waves.length ((waves.map List.length).sum)
        waves 0 ⟨[], true, 0, [], []⟩).starts from rfl, hs] at this
    simpa using this

/-- Witness for C5 at the spec's failure scenario: waves `[[x, y], [z]]`
with `x` exiting nonzero. -/
theorem c5_executePlan_failure_short_circuit_witness :
    (executePlan [["x", "y"], ["z"]] xyzProjects exBuildCommand xFailsRun
        false).1.success = false ∧
    (∀ n, (∃ r ∈ (executePlan [["x", "y"], ["z"]] xyzProjects exBuildCommand
        xFailsRun false).1.results, r.project = n) ↔
      n ∈ ([["x", "y"], ["z"]].take (0 + 1)).flatten) ∧
    (∀ y ∈ [["x", "y"], ["z"]].get ⟨0, by decide⟩,
      (∃ r ∈ (executePlan [["x", "y"], ["z"]] xyzProjects exBuildCommand
          xFailsRun false).1.results, r.project = y) ∧
      (∃ c ∈ (executePlan [["x", "y"], ["z"]] xyzProjects exBuildCommand
          xFailsRun false).2.2, c.project = y)) ∧
    (∀ i ∈ (executePlan [["x", "y"], ["z"]] xyzProjects exBuildCommand
        xFailsRun false).2.1,
      i.project ∈ ([["x", "y"], ["z"]].take (0 + 1)).flatten) :=
  c5_executePlan_failure_short_circuit [["x", "y"], ["z"]] xyzProjects
    exBuildCommand xFailsRun 0 (by decide) (by decide)
    (fun j hj hlt y hy => absurd hlt (by omega))
    ⟨"x", by decide, by decide⟩

/-- Sanity check: in the failure scenario, `x` and `y` are reported (with
`y` succeeding) and `z` never appears. -/
theorem executePlan_fail_eval :
    (executePlan [["x", "y"], ["z"]] xyzProjects exBuildCommand xFailsRun
        false).1 =
      ⟨false, [⟨"x", false, 7, "", "boom"⟩, ⟨"y", true, 5, "ok", ""⟩]⟩ := by decide

theorem runProject_dry_run_indep (projects : ProjectsMap) (bc : Project → String)
    (run1 run2 : String → RunOutcome) (wIdx tW tS : Nat) (par : Bool)
    (st : ExecState) (n : String) :
    runProject projects bc run1 true wIdx tW tS par st n =
      runProject projects bc run2 true wIdx tW tS par st n := by
  unfold runProject
  cases projects.find? (fun p => p.1 == n) <;> rfl

theorem foldl_runProject_dry_spec (projects : ProjectsMap) (bc : Project → String)
    (run : String → RunOutcome) (wIdx tW tS : Nat) (par : Bool) :
    ∀ (wave : List String) (st : ExecState),
      (∀ n ∈ wave, (projects.find? (fun p => p.1 == n)).isSome) →
      ((wave.foldl (runProject projects bc run true wIdx tW tS par) st).results.map
          (fun r => r.project) = st.results.map (fun r => r.project) ++ wave) ∧
      ((wave.foldl (runProject projects bc run true wIdx tW tS par) st).overallSuccess
          = st.overallSuccess) ∧
      ((wave.foldl (runProject projects bc run true wIdx tW tS par) st).starts.map
          (fun i => i.project) = st.starts.map (fun i => i.project) ++ wave) ∧
      ((wave.foldl (runProject projects bc run true wIdx tW tS par) st).completes
          = st.completes) ∧
      (∀ r ∈ (wave.foldl (runProject projects bc run true wIdx tW tS par) st).results,
        r ∈ st.results ∨
          (r.success = true ∧ r.duration = 0 ∧ r.error = "" ∧
            ∃ pr, projects.find? (fun p => p.1 == r.project) = some pr ∧
              r.output = "[dry-run] Would run: " ++ bc pr.2)) := by
  intro wave
  induction wave with
  | nil =>
    intro st _
    exact ⟨by simp, rfl, by simp, rfl, fun r hr => Or.inl hr⟩
  | cons n wave ihw =>
    intro st hall
    obtain ⟨pr, hpr⟩ := Option.isSome_iff_exists.mp (hall n (List.mem_cons_self _ _))
    have hstep : runProject projects bc run true wIdx tW tS par st n =
        { results := st.results ++
            [⟨n, true, 0, "[dry-run] Would run: " ++ bc pr.2, ""⟩],
          overallSuccess := st.overallSuccess,
          currentStep := st.currentStep + 1,
          starts := st.starts ++
            [⟨n, wIdx + 1, tW, st.currentStep + 1, tS, par⟩],
          completes := st.completes } := by
      unfold runProject
      rw [hpr]
      rfl
    rw [List.foldl_cons, hstep]
    obtain ⟨h1, h2, h3, h4, h5⟩ := ihw _ (fun m hm => hall m (List.mem_cons_of_mem _ hm))
    refine ⟨?_, h2, ?_, h4, ?_⟩
    · rw [h1]
      simp
    · rw [h3]
      simp
    · intro r hr
      rcases h5 r hr with hmem | hshape
      · rcases List.mem_append.mp hmem with hmem | hmem
        · exact Or.inl hmem
        · rw [List.mem_singleton] at hmem
          subst hmem
          exact Or.inr ⟨rfl, rfl, rfl, pr, hpr, rfl⟩
      · exact Or.inr hshape

theorem execWaves_dry_spec (projects : ProjectsMap) (bc : Project → String)
    (run : String → RunOutcome) (tW tS : Nat) :
    ∀ (ws : List (List String)) (wIdx : Nat) (st : ExecState),
      (∀ w ∈ ws, ∀ n ∈ w, (projects.find? (fun p => p.1 == n)).isSome) →
      st.overallSuccess = true →
      (execWaves projects bc run true tW tS ws wIdx st).overallSuccess = true ∧
      ((execWaves projects bc run true tW tS ws wIdx st).results.map
          (fun r => r.project)
        = st.results.map (fun r => r.project) ++ ws.flatten) ∧
      ((execWaves projects bc run true tW tS ws wIdx st).starts.map
          (fun i => i.project)
        = st.starts.map (fun i => i.project) ++ ws.flatten) ∧
      ((execWaves projects bc run true tW tS ws wIdx st).completes = st.completes) ∧
      (∀ r ∈ (execWaves projects bc run true tW tS ws wIdx st).results,
        r ∈ st.results ∨
          (r.success = true ∧ r.duration = 0 ∧ r.error = "" ∧
            ∃ pr, projects.find? (fun p => p.1 == r.project) = some pr ∧
              r.output = "[dry-run] Would run: " ++ bc pr.2)) := by
  intro ws
  induction ws with
  | nil =>
    intro wIdx st _ hok
    exact ⟨hok, by simp [execWaves], by simp [execWaves], rfl, fun r hr => Or.inl hr⟩
  | cons w ws ihws =>
    intro wIdx st hall hok
    obtain ⟨h1, h2, h3, h4, h5⟩ :=
      foldl_runProject_dry_spec projects bc run wIdx tW tS (decide (w.length > 1)) w st
        (hall w (List.mem_cons_self _ _))
    simp only [execWaves]
    rw [if_pos (by rw [h2, hok])]
    obtain ⟨q1, q2, q3, q4, q5⟩ :=
      ihws (wIdx + 1) _ (fun v hv n hn => hall v (List.mem_cons_of_mem _ hv) n hn)
        (by rw [h2, hok])
    refine ⟨q1, ?_, ?_, by rw [q4, h4], ?_⟩
    · rw [q2, h1]
      simp [List.flatten_cons]
    · rw [q3, h3]
      simp [List.flatten_cons]
    · intro r hr
      rcases q5 r hr with hmem | hshape
      · exact h5 r hmem
      · exact Or.inr hshape

theorem execWaves_dry_run_indep (projects : ProjectsMap) (bc : Project → String)
    (run1 run2 : String → RunOutcome) (tW tS : Nat) :
    ∀ (ws : List (List String)) (wIdx : Nat) (st : ExecState),
      execWaves projects bc run1 true tW tS ws wIdx st =
        execWaves projects bc run2 true tW tS ws wIdx st := by
  intro ws
  induction ws with
  | nil =>
    intro wIdx st
    rfl
  | cons w ws ihws =>
    intro wIdx st
    have hfold : ∀ (wave : List String) (st2 : ExecState),
        wave.foldl (runProject projects bc run1 true wIdx tW tS
          (decide (w.length > 1))) st2 =
        wave.foldl (runProject projects bc run2 true wIdx tW tS
          (decide (w.length > 1))) st2 := by
      intro wave
      induction wave with
      | nil => intro st2; rfl
      | cons m wave ihm =>
        intro st2
        rw [List.foldl_cons, List.foldl_cons,
          runProject_dry_run_indep projects bc run1 run2 wIdx tW tS _ st2 m]
        exact ihm _
    simp only [execWaves]
    rw [hfold w st]
    by_cases hov : (w.foldl (runProject projects bc run2 true wIdx tW tS
        (decide (w.length > 1))) st).overallSuccess = true
    · rw [if_pos hov, if_pos hov]
      exact ihws (wIdx + 1) _
    · rw [if_neg hov, if_neg hov]

/-- C10: with `dryRun = true` and every planned name a known project,
`executePlan` spawns nothing (its result does not depend on the run
oracle), returns `success = true` with exactly one result per planned
project in plan order, each result carrying duration `0`, empty error and
the output `[dry-run] Would run: <command>`; `onStart` fires for every
project while `onComplete` never fires. -/
theorem c10_executePlan_dry_run (waves : List (List String))
    (projects : ProjectsMap) (bc : Project → String) (run : String → RunOutcome)
    (hall : ∀ w ∈ waves, ∀ n ∈ w, (projects.find? (fun p => p.1 == n)).isSome) :
    (executePlan waves projects bc run true).1.success = true ∧
    ((executePlan waves projects bc run true).1.results.map (fun r => r.project)
      = waves.flatten) ∧
    (∀ r ∈ (executePlan waves projects bc run true).1.results,
      r.success = true ∧ r.duration = 0 ∧ r.error = "" ∧
        ∃ pr, projects.find? (fun p => p.1 == r.project) = some pr ∧
          r.output = "[dry-run] Would run: " ++ bc pr.2) ∧
    ((executePlan waves projects bc run true).2.1.map (fun i => i.project)
      = waves.flatten) ∧
    ((executePlan waves projects bc run true).2.2 = []) ∧
    (∀ run2 : String → RunOutcome,
      executePlan waves projects bc run true = executePlan waves projects bc run2 true) := by
  obtain ⟨q1, q2, q3, q4, q5⟩ :=
    execWaves_dry_spec projects bc run waves.length ((waves.map List.length).sum)
      waves 0 ⟨[], true, 0, [], []⟩ hall rfl
  refine ⟨q1, ?_, ?_, ?_, q4, ?_⟩
  · show (execWaves projects bc run true waves.length ((waves.map List.length).sum)
      waves 0 ⟨[], true, 0, [], []⟩).results.map (fun r => r.project) = waves.flatten
    rw [q2]
    simp
  · intro r hr
    rcases q5 r hr with hmem | hshape
    · simp at hmem
    · exact hshape
  · show (execWaves projects bc run true waves.length ((waves.map List.length).sum)
      waves 0 ⟨[], true, 0, [], []⟩).starts.map (fun i => i.project) = waves.flatten
    rw [q3]
    simp
  · intro run2
    show (_, _, _) = (_, _, _)
    rw [execWaves_dry_run_indep projects bc run run2 waves.length
      ((waves.map List.length).sum) waves 0 ⟨[], true, 0, [], []⟩]

/-- Witness for C10 at the concrete plan `[[x, y], [z]]` over
`xyzProjects`. -/
theorem c10_executePlan_dry_run_witness :
    (executePlan [["x", "y"], ["z"]] xyzProjects exBuildCommand xFailsRun
        true).1.success = true ∧
    ((executePlan [["x", "y"], ["z"]] xyzProjects exBuildCommand xFailsRun
        true).1.results.map (fun r => r.project) = [["x", "y"], ["z"]].flatten) ∧
    (∀ r ∈ (executePlan [["x", "y"], ["z"]] xyzProjects exBuildCommand xFailsRun
        true).1.results,
      r.success = true ∧ r.duration = 0 ∧ r.error = "" ∧
        ∃ pr, xyzProjects.find? (fun p => p.1 == r.project) = some pr ∧
          r.output = "[dry-run] Would run: " ++ exBuildCommand pr.2) ∧
    ((executePlan [["x", "y"], ["z"]] xyzProjects exBuildCommand xFailsRun
        true).2.1.map (fun i => i.project) = [["x", "y"], ["z"]].flatten) ∧
    ((executePlan [["x", "y"], ["z"]] xyzProjects exBuildCommand xFailsRun
        true).2.2 = []) ∧
    (∀ run2 : String → RunOutcome,
      executePlan [["x", "y"], ["z"]] xyzProjects exBuildCommand xFailsRun true =
        executePlan [["x", "y"], ["z"]] xyzProjects exBuildCommand run2 true) :=
  c10_executePlan_dry_run [["x", "y"], ["z"]] xyzProjects exBuildCommand xFailsRun
    (by decide)

/-! ## Watch-loop coalescing lemmas (C6) -/

theorem watchStep_change_eq (s : WatchState) (batch : List String) :
    watchStep s (.change batch) =
      if s.isBuilding then
        { s with pendingChanges := some (setUnion (s.pendingChanges.getD []) batch) }
      else
        { s with isBuilding := true, builds := s.builds ++ [batch],
                 running := s.running + 1 } := rfl

theorem watchStep_finishBuild_eq (s : WatchState) :
    watchStep s .finishBuild =
      if s.isBuilding then
        if (s.pendingChanges.getD []).length > 0 then
          { isBuilding := true, pendingChanges := none,
            builds := s.builds ++ [s.pendingChanges.getD []],
            running := s.running - 1 + 1 }
        else { s with isBuilding := false, running := s.running - 1 }
      else s := rfl

theorem watchStep_finishEmpty_eq (s : WatchState) :
    watchStep s .finishEmpty =
      if s.isBuilding then { s with isBuilding := false, running := s.running - 1 }
      else s := rfl

theorem watchStep_finishGenFail_eq (s : WatchState) :
    watchStep s .finishGenFail =
      if s.isBuilding then { s with isBuilding := false, running := s.running - 1 }
      else s := rfl

theorem watchStep_change_building (s : WatchState) (batch : List String)
    (hb : s.isBuilding = true) :
    watchStep s (.change batch) =
      { s with pendingChanges := some (setUnion (s.pendingChanges.getD []) batch) } := by
  rw [watchStep_change_eq, if_pos hb]

theorem watch_changes_accumulate (batches : List (List String)) :
    ∀ s : WatchState, s.isBuilding = true → batches ≠ [] →
      (batches.map WatchEv.change).foldl watchStep s =
        { s with pendingChanges := some (batches.foldl setUnion (s.pendingChanges.getD [])) } := by
  induction batches with
  | nil => intro s _ h; exact absurd rfl h
  | cons b bs ih =>
    intro s hb _
    rw [List.map_cons, List.foldl_cons, watchStep_change_building s b hb]
    by_cases hbs : bs = []
    · subst hbs
      rfl
    · rw [ih { s with pendingChanges := some (setUnion (s.pendingChanges.getD []) b) }
        hb hbs]
      rfl

theorem watch_finish_consume (s : WatchState) (p : List String)
    (hb : s.isBuilding = true) (hp : s.pendingChanges = some p)
    (hne : p ≠ []) :
    watchStep s .finishBuild =
      { isBuilding := true, pendingChanges := none,
        builds := s.builds ++ [p], running := s.running - 1 + 1 } := by
  have hgd : s.pendingChanges.getD [] = p := by rw [hp]; rfl
  rw [watchStep_finishBuild_eq, if_pos hb, hgd,
    if_pos (List.length_pos.mpr hne)]

theorem watchStep_invariant (s : WatchState) (e : WatchEv)
    (h1 : s.running ≤ 1) (h2 : s.isBuilding = true ↔ s.running = 1) :
    (watchStep s e).running ≤ 1 ∧
      ((watchStep s e).isBuilding = true ↔ (watchStep s e).running = 1) := by
  cases e with
  | change batch =>
    rw [watchStep_change_eq]
    by_cases hb : s.isBuilding = true
    · rw [if_pos hb]
      exact ⟨h1, h2⟩
    · rw [if_neg hb]
      have h0 : s.running = 0 := by
        by_contra hne
        exact hb (h2.mpr (by omega))
      refine ⟨?_, ?_⟩
      · show s.running + 1 ≤ 1
        omega
      · show (true = true ↔ s.running + 1 = 1)
        exact ⟨fun _ => by omega, fun _ => rfl⟩
  | finishBuild =>
    rw [watchStep_finishBuild_eq]
    by_cases hb : s.isBuilding = true
    · rw [if_pos hb]
      have hr1 : s.running = 1 := h2.mp hb
      by_cases hl : (s.pendingChanges.getD []).length > 0
      · rw [if_pos hl]
        refine ⟨?_, ?_⟩
        · show s.running - 1 + 1 ≤ 1
          omega
        · show (true = true ↔ s.running - 1 + 1 = 1)
          exact ⟨fun _ => by omega, fun _ => rfl⟩
      · rw [if_neg hl]
        refine ⟨?_, ?_⟩
        · show s.running - 1 ≤ 1
          omega
        · show (false = true ↔ s.running - 1 = 1)
          exact ⟨fun h => Bool.noConfusion h, fun h => absurd h (by omega)⟩
    · rw [if_neg hb]
      exact ⟨h1, h2⟩
  | finishEmpty =>
    rw [watchStep_finishEmpty_eq]
    by_cases hb : s.isBuilding = true
    · rw [if_pos hb]
      have hr1 : s.running = 1 := h2.mp hb
      refine ⟨?_, ?_⟩
      · show s.running - 1 ≤ 1
        omega
      · show (false = true ↔ s.running - 1 = 1)
        exact ⟨fun h => Bool.noConfusion h, fun h => absurd h (by omega)⟩
    · rw [if_neg hb]
      exact ⟨h1, h2⟩
  | finishGenFail =>
    rw [watchStep_finishGenFail_eq]
    by_cases hb : s.isBuilding = true
    · rw [if_pos hb]
      have hr1 : s.running = 1 := h2.mp hb
      refine ⟨?_, ?_⟩
      · show s.running - 1 ≤ 1
        omega
      · show (false = true ↔ s.running - 1 = 1)
        exact ⟨fun h => Bool.noConfusion h, fun h => absurd h (by omega)⟩
    · rw [if_neg hb]
      exact ⟨h1, h2⟩

theorem watch_running_le_one_aux (evs : List WatchEv) :
    ∀ s : WatchState, s.running ≤ 1 → (s.isBuilding = true ↔ s.running = 1) →
      (evs.foldl watchStep s).running ≤ 1 ∧
        ((evs.foldl watchStep s).isBuilding = true ↔
          (evs.foldl watchStep s).running = 1) := by
  induction evs with
  | nil => intro s h1 h2; exact ⟨h1, h2⟩
  | cons e evs ih =>
    intro s h1 h2
    rw [List.foldl_cons]
    have h := watchStep_invariant s e h1 h2
    exact ih (watchStep s e) h.1 h.2

/-- C6: in the watch-loop protocol of `handleChanges`, (a) a change batch
delivered while a build is in progress is unioned into the single pending
set and starts no build (the state changes only in `pendingChanges`);
(b) when the running build releases the lock with a non-empty pending set,
that set is consumed in full as the input of exactly one follow-up build;
(c) along every event trace from the initial state at most one build is in
progress at any time; (d) a chain of change batches delivered during one
build, followed by that build's completion, collapses to a single
follow-up build whose input is the union of the pending set with all the
batches. -/
theorem c6_watch_coalescing :
    (∀ (s : WatchState) (batch : List String), s.isBuilding = true →
      watchStep s (.change batch) =
        { s with pendingChanges := some (setUnion (s.pendingChanges.getD []) batch) }) ∧
    (∀ (s : WatchState) (p : List String), s.isBuilding = true →
      s.pendingChanges = some p → p ≠ [] →
      watchStep s .finishBuild =
        { isBuilding := true, pendingChanges := none,
          builds := s.builds ++ [p], running := s.running - 1 + 1 }) ∧
    (∀ evs : List WatchEv,
      (evs.foldl watchStep initWatchState).running ≤ 1) ∧
    (∀ (s : WatchState) (batches : List (List String)),
      s.isBuilding = true → batches ≠ [] →
      batches.foldl setUnion (s.pendingChanges.getD []) ≠ [] →
      ((batches.map WatchEv.change ++ [WatchEv.finishBuild]).foldl watchStep
          s).builds
        = s.builds ++ [batches.foldl setUnion (s.pendingChanges.getD [])] ∧
      ((batches.map WatchEv.change ++ [WatchEv.finishBuild]).foldl watchStep
          s).pendingChanges = none) := by
  refine ⟨?_, ?_, ?_, ?_⟩
  · intro s batch hb
    exact watchStep_change_building s batch hb
  · intro s p hb hp hne
    exact watch_finish_consume s p hb hp hne
  · intro evs
    exact (watch_running_le_one_aux evs initWatchState (by decide) (by decide)).1
  · intro s batches hb hne hune
    have hcons := watch_finish_consume
      { s with pendingChanges := some (batches.foldl setUnion (s.pendingChanges.getD [])) }
      (batches.foldl setUnion (s.pendingChanges.getD [])) hb rfl hune
    rw [List.foldl_append, watch_changes_accumulate batches s hb hne]
    rw [List.foldl_cons, List.foldl_nil, hcons]
    exact ⟨rfl, rfl⟩

/-- Witness for C6 at a concrete mid-build state with pending batch
`["a"]` and two change batches `["b"]`, `["c"]`. -/
theorem c6_watch_coalescing_witness :
    ((([["b"], ["c"]].map WatchEv.change ++ [WatchEv.finishBuild]).foldl
        watchStep (⟨true, some ["a"], [["a0"]], 1⟩ : WatchState)).builds
      = [["a0"]] ++ [[["b"], ["c"]].foldl setUnion
          ((some ["a"] : Option (List String)).getD [])]) ∧
    ((([["b"], ["c"]].map WatchEv.change ++ [WatchEv.finishBuild]).foldl
        watchStep (⟨true, some ["a"], [["a0"]], 1⟩ : WatchState)).pendingChanges
      = none) :=
  c6_watch_coalescing.2.2.2 ⟨true, some ["a"], [["a0"]], 1⟩ [["b"], ["c"]]
    rfl (by decide) (by decide)

/-! ## Generator-trigger lemmas (C7) -/

/-- C7: the claim's resolution rule and the code disagree. The identifier
`auth` resolves (by the name-suffix rule `"/" + id`) to the affected
project `@example/auth`, yet `shouldRunGenerator` does not fire: with
declared deps it compares the dep only against affected project names and
their workspace-relative paths, and never applies the name-suffix rule. -/
theorem c7_generator_trigger_counterexample :
    specResolvesToAffected "auth" ["@example/auth"] authProjects ∧
    shouldRunGenerator "tools/gen" ⟨"make gen", ["auth"]⟩ ["@example/auth"]
      authProjects "/ws" = false := by
  constructor
  · exact ⟨"@example/auth", by decide, Or.inr (Or.inl (by decide))⟩
  · decide

/-- C7 (amended): exact characterization of `shouldRunGenerator`. With
declared deps, the generator fires iff some dep matches an affected
project name exactly, or matches some affected project's
workspace-relative path by equality or by the suffix `"/" + dep`; with no
deps, it fires iff the key path resolved under the root lies under some
affected project's directory. Name-suffix matching of deps against
project names is not performed. -/
theorem c7_generator_trigger_amended (sourcePath : String)
    (sourceConfig : SourceConfig) (affectedProjects : List String)
    (projects : ProjectsMap) (root : String) :
    shouldRunGenerator sourcePath sourceConfig affectedProjects projects root
        = true ↔
      ((sourceConfig.deps ≠ [] ∧ ∃ dep ∈ sourceConfig.deps,
        (dep ∈ affectedProjects ∨
          ∃ name ∈ affectedProjects, ∃ pr,
            projects.find? (fun p => p.1 == name) = some pr ∧
              (pr.2.path = dep ∨ strEndsWith pr.2.path ("/" ++ dep) = true))) ∨
      (sourceConfig.deps = [] ∧ ∃ name ∈ affectedProjects, ∃ pr,
        projects.find? (fun p => p.1 == name) = some pr ∧
          strStartsWith (jsPathResolve root sourcePath) pr.2.absolutePath
            = true)) := by
  unfold shouldRunGenerator
  by_cases hd : sourceConfig.deps.length > 0
  · rw [if_pos hd]
    have hdne : sourceConfig.deps ≠ [] := List.length_pos.mp hd
    constructor
    · intro h
      simp only [List.any_eq_true, Bool.or_eq_true] at h
      obtain ⟨dep, hdep, hcase⟩ := h
      refine Or.inl ⟨hdne, dep, hdep, ?_⟩
      rcases hcase with hc | ⟨name, hn, hmatch⟩
      · exact Or.inl (List.mem_of_elem_eq_true hc)
      · right
        cases hf : projects.find? (fun p => p.1 == name) with
        | none =>
          rw [hf] at hmatch
          exact Bool.noConfusion hmatch
        | some pr =>
          rw [hf] at hmatch
          replace hmatch : (pr.2.path == dep ||
              strEndsWith pr.2.path ("/" ++ dep)) = true := hmatch
          rw [Bool.or_eq_true] at hmatch
          refine ⟨name, hn, pr, hf, ?_⟩
          rcases hmatch with h | h
          · exact Or.inl (beq_iff_eq.mp h)
          · exact Or.inr h
    · intro h
      rcases h with ⟨-, dep, hdep, hcase⟩ | ⟨heq, -⟩
      · simp only [List.any_eq_true, Bool.or_eq_true]
        refine ⟨dep, hdep, ?_⟩
        rcases hcase with hc | ⟨name, hn, pr, hf, hpr⟩
        · exact Or.inl (List.elem_eq_true_of_mem hc)
        · refine Or.inr ⟨name, hn, ?_⟩
          rw [hf]
          show (pr.2.path == dep || strEndsWith pr.2.path ("/" ++ dep)) = true
          rw [Bool.or_eq_true]
          rcases hpr with h | h
          · exact Or.inl (beq_iff_eq.mpr h)
          · exact Or.inr h
      · exact absurd heq hdne
  · rw [if_neg hd]
    have hdeq : sourceConfig.deps = [] := by
      cases hds : sourceConfig.deps with
      | nil => rfl
      | cons a l =>
        exfalso
        apply hd
        rw [hds]
        simp
    constructor
    · intro h
      simp only [List.any_eq_true] at h
      obtain ⟨name, hn, hmatch⟩ := h
      cases hf : projects.find? (fun p => p.1 == name) with
      | none =>
        rw [hf] at hmatch
        exact Bool.noConfusion hmatch
      | some pr =>
        rw [hf] at hmatch
        replace hmatch :
            strStartsWith (jsPathResolve root sourcePath) pr.2.absolutePath
              = true := hmatch
        exact Or.inr ⟨hdeq, name, hn, pr, hf, hmatch⟩
    · intro h
      rcases h with ⟨hne, -⟩ | ⟨-, name, hn, pr, hf, hpr⟩
      · exact absurd (List.length_pos.mpr hne) hd
      · simp only [List.any_eq_true]
        refine ⟨name, hn, ?_⟩
        rw [hf]
        exact hpr

/-- Witness for the C7 amended characterization at the counterexample
input. -/
theorem c7_generator_trigger_amended_witness :
    shouldRunGenerator "tools/gen" ⟨"make gen", ["auth"]⟩ ["@example/auth"]
        authProjects "/ws" = true ↔
      (((["auth"] : List String) ≠ [] ∧ ∃ dep ∈ (["auth"] : List String),
        (dep ∈ ["@example/auth"] ∨
          ∃ name ∈ ["@example/auth"], ∃ pr,
            authProjects.find? (fun p => p.1 == name) = some pr ∧
              (pr.2.path = dep ∨ strEndsWith pr.2.path ("/" ++ dep) = true))) ∨
      ((["auth"] : List String) = [] ∧ ∃ name ∈ ["@example/auth"], ∃ pr,
        authProjects.find? (fun p => p.1 == name) = some pr ∧
          strStartsWith (jsPathResolve "/ws" "tools/gen") pr.2.absolutePath
            = true)) :=
  c7_generator_trigger_amended "tools/gen" ⟨"make gen", ["auth"]⟩
    ["@example/auth"] authProjects "/ws"

/-! ## Watcher payload (C8) -/

/-- C8: actual behavior of the watcher's batch processing. For the batch
`["/ws/libs/a/src/x.ts"]` the debounce flush attributes the path to
project `A` and invokes `onChange` exactly once, but the payload is the
changed-project set alone: `watcher.ts` calls `onChange(changedProjects)`
with one argument and never constructs the `filesByProject` map of paths
grouped by project that `WatcherOptions.onChange` (`types.ts`) declares
as its second parameter, so the claimed grouped-paths payload does not
exist in the delivered call. -/
theorem c8_watcher_payload_eval :
    processChanges "/ws" aProjects ["/ws/libs/a/src/x.ts"] = some ["A"] := by
  decide

/-! ## Identifier-resolution lemmas (C9) -/

theorem mem_resolveOne_of_mem (graph : DependencyGraph) (resolved : List String)
    (id x : String) (hx : x ∈ resolved) : x ∈ resolveOne graph resolved id := by
  unfold resolveOne
  by_cases h : id ∈ projectKeys graph.projects
  · rw [if_pos h]
    exact mem_setAdd.mpr (Or.inl hx)
  · rw [if_neg h]
    cases h1 : graph.projects.find?
        (fun pr => pr.2.path == id || pr.2.absolutePath == id) with
    | none =>
      cases h2 : (projectKeys graph.projects).find?
          (fun name => strEndsWith name ("/" ++ id) || name == id) with
      | none => exact hx
      | some name => exact mem_setAdd.mpr (Or.inl hx)
    | some pr =>
      cases h2 : (projectKeys graph.projects).find?
          (fun name => strEndsWith name ("/" ++ id) || name == id) with
      | none => exact mem_setAdd.mpr (Or.inl hx)
      | some name =>
        exact mem_setAdd.mpr (Or.inl (mem_setAdd.mpr (Or.inl hx)))

theorem mem_resolveOne_sound (graph : DependencyGraph) (resolved : List String)
    (id x : String) (hx : x ∈ resolveOne graph resolved id) :
    x ∈ resolved ∨ (x ∈ projectKeys graph.projects ∧
      (x = id ∨
        (∃ pr ∈ graph.projects, pr.1 = x ∧
          (pr.2.path = id ∨ pr.2.absolutePath = id)) ∨
        strEndsWith x ("/" ++ id) = true)) := by
  unfold resolveOne at hx
  by_cases h : id ∈ projectKeys graph.projects
  · rw [if_pos h] at hx
    rcases mem_setAdd.mp hx with hr | hxe
    · exact Or.inl hr
    · subst hxe
      exact Or.inr ⟨h, Or.inl rfl⟩
  · rw [if_neg h] at hx
    cases h1 : graph.projects.find?
        (fun pr => pr.2.path == id || pr.2.absolutePath == id) with
    | none =>
      rw [h1] at hx
      cases h2 : (projectKeys graph.projects).find?
          (fun name => strEndsWith name ("/" ++ id) || name == id) with
      | none =>
        rw [h2] at hx
        replace hx : x ∈ resolved := hx
        exact Or.inl hx
      | some name =>
        rw [h2] at hx
        replace hx : x ∈ setAdd resolved name := hx
        rcases mem_setAdd.mp hx with hr | hxe
        · exact Or.inl hr
        · have hnm : name ∈ projectKeys graph.projects :=
            List.mem_of_find?_eq_some h2
          have hpred := List.find?_some h2
          simp only [Bool.or_eq_true, beq_iff_eq] at hpred
          subst hxe
          refine Or.inr ⟨hnm, ?_⟩
          rcases hpred with hp | hp
          · exact Or.inr (Or.inr hp)
          · exact Or.inl hp
    | some pr =>
      rw [h1] at hx
      have hprm : pr ∈ graph.projects := List.mem_of_find?_eq_some h1
      have hpred := List.find?_some h1
      simp only [Bool.or_eq_true, beq_iff_eq] at hpred
      cases h2 : (projectKeys graph.projects).find?
          (fun name => strEndsWith name ("/" ++ id) || name == id) with
      | none =>
        rw [h2] at hx
        replace hx : x ∈ setAdd resolved pr.1 := hx
        rcases mem_setAdd.mp hx with hr | hxe
        · exact Or.inl hr
        · subst hxe
          exact Or.inr ⟨List.mem_map.mpr ⟨pr, hprm, rfl⟩,
            Or.inr (Or.inl ⟨pr, hprm, rfl, hpred⟩)⟩
      | some name =>
        rw [h2] at hx
        replace hx : x ∈ setAdd (setAdd resolved pr.1) name := hx
        have hnm : name ∈ projectKeys graph.projects :=
          List.mem_of_find?_eq_some h2
        have hpred2 := List.find?_some h2
        simp only [Bool.or_eq_true, beq_iff_eq] at hpred2
        rcases mem_setAdd.mp hx with hx1 | hxe
        · rcases mem_setAdd.mp hx1 with hr | hxe1
          · exact Or.inl hr
          · subst hxe1
            exact Or.inr ⟨List.mem_map.mpr ⟨pr, hprm, rfl⟩,
              Or.inr (Or.inl ⟨pr, hprm, rfl, hpred⟩)⟩
        · subst hxe
          refine Or.inr ⟨hnm, ?_⟩
          rcases hpred2 with hp | hp
          · exact Or.inr (Or.inr hp)
          · exact Or.inl hp

theorem foldl_resolveOne_preserves (graph : DependencyGraph)
    (ids : List String) :
    ∀ (resolved : List String) (x : String), x ∈ resolved →
      x ∈ ids.foldl (resolveOne graph) resolved := by
  induction ids with
  | nil => intro _ _ hx; exact hx
  | cons a ids ih =>
    intro resolved x hx
    rw [List.foldl_cons]
    exact ih _ x (mem_resolveOne_of_mem graph resolved a x hx)

theorem resolve_keeps_exact (graph : DependencyGraph) (ids : List String) :
    ∀ (resolved : List String) (id : String), id ∈ ids →
      id ∈ projectKeys graph.projects →
      id ∈ ids.foldl (resolveOne graph) resolved := by
  induction ids with
  | nil => intro _ _ h _; cases h
  | cons a ids ih =>
    intro resolved id hmem hkey
    rw [List.foldl_cons]
    rcases List.mem_cons.mp hmem with h | h
    · subst h
      apply foldl_resolveOne_preserves
      unfold resolveOne
      rw [if_pos hkey]
      exact mem_setAdd.mpr (Or.inr rfl)
    · exact ih _ id h hkey

theorem resolveOne_adds_path (graph : DependencyGraph) (resolved : List String)
    (id : String) (pr : String × Project)
    (hnk : id ∉ projectKeys graph.projects)
    (hf : graph.projects.find?
      (fun pr => pr.2.path == id || pr.2.absolutePath == id) = some pr) :
    pr.1 ∈ resolveOne graph resolved id := by
  unfold resolveOne
  rw [if_neg hnk, hf]
  cases h2 : (projectKeys graph.projects).find?
      (fun name => strEndsWith name ("/" ++ id) || name == id) with
  | none => exact mem_setAdd.mpr (Or.inr rfl)
  | some name => exact mem_setAdd.mpr (Or.inl (mem_setAdd.mpr (Or.inr rfl)))

theorem resolveOne_adds_name (graph : DependencyGraph) (resolved : List String)
    (id name : String)
    (hnk : id ∉ projectKeys graph.projects)
    (hf : (projectKeys graph.projects).find?
      (fun name => strEndsWith name ("/" ++ id) || name == id) = some name) :
    name ∈ resolveOne graph resolved id := by
  unfold resolveOne
  rw [if_neg hnk, hf]
  cases h1 : graph.projects.find?
      (fun pr => pr.2.path == id || pr.2.absolutePath == id) with
  | none => exact mem_setAdd.mpr (Or.inr rfl)
  | some pr => exact mem_setAdd.mpr (Or.inr rfl)

theorem resolve_keeps_path (graph : DependencyGraph) (ids : List String) :
    ∀ (resolved : List String) (id : String) (pr : String × Project),
      id ∈ ids → id ∉ projectKeys graph.projects →
      graph.projects.find?
        (fun pr => pr.2.path == id || pr.2.absolutePath == id) = some pr →
      pr.1 ∈ ids.foldl (resolveOne graph) resolved := by
  induction ids with
  | nil => intro _ _ _ h _ _; cases h
  | cons a ids ih =>
    intro resolved id pr hmem hnk hf
    rw [List.foldl_cons]
    rcases List.mem_cons.mp hmem with h | h
    · subst h
      exact foldl_resolveOne_preserves graph ids _ _
        (resolveOne_adds_path graph resolved id pr hnk hf)
    · exact ih _ id pr h hnk hf

theorem resolve_keeps_name (graph : DependencyGraph) (ids : List String) :
    ∀ (resolved : List String) (id name : String),
      id ∈ ids → id ∉ projectKeys graph.projects →
      (projectKeys graph.projects).find?
        (fun name => strEndsWith name ("/" ++ id) || name == id) = some name →
      name ∈ ids.foldl (resolveOne graph) resolved := by
  induction ids with
  | nil => intro _ _ _ h _ _; cases h
  | cons a ids ih =>
    intro resolved id name hmem hnk hf
    rw [List.foldl_cons]
    rcases List.mem_cons.mp hmem with h | h
    · subst h
      exact foldl_resolveOne_preserves graph ids _ _
        (resolveOne_adds_name graph resolved id name hnk hf)
    · exact ih _ id name h hnk hf

theorem foldl_resolveOne_sound (graph : DependencyGraph) (ids : List String) :
    ∀ (resolved : List String) (x : String),
      x ∈ ids.foldl (resolveOne graph) resolved →
      x ∈ resolved ∨ (x ∈ projectKeys graph.projects ∧ ∃ id ∈ ids,
        (x = id ∨
          (∃ pr ∈ graph.projects, pr.1 = x ∧
            (pr.2.path = id ∨ pr.2.absolutePath = id)) ∨
          strEndsWith x ("/" ++ id) = true)) := by
  induction ids with
  | nil => intro resolved x hx; exact Or.inl hx
  | cons a ids ih =>
    intro resolved x hx
    rw [List.foldl_cons] at hx
    rcases ih _ x hx with h | ⟨hkey, id, hid, hm⟩
    · rcases mem_resolveOne_sound graph resolved a x h with h1 | ⟨hkey, hm⟩
      · exact Or.inl h1
      · exact Or.inr ⟨hkey, a, List.mem_cons_self a ids, hm⟩
    · exact Or.inr ⟨hkey, id, List.mem_cons_of_mem a hid, hm⟩

theorem getAffectedProjects_nil (rdeps : DepsMap) :
    getAffectedProjects [] rdeps = some [] := by
  unfold getAffectedProjects
  cases affectedFuel [] rdeps with
  | zero => rfl
  | succ n => rfl

theorem planCommand_all_unresolved (projects : ProjectsMap)
    (changed : List String)
    (hcyc : detectCycles (buildGraph projects) = none)
    (hne : changed ≠ [])
    (hres : resolveProjectNames changed (buildGraph projects) = []) :
    planCommand projects changed = .fatalUnresolved changed := by
  have hne' : ¬(changed.isEmpty = true) := by
    cases changed with
    | nil => exact absurd rfl hne
    | cons a l => exact fun hx => Bool.noConfusion hx
  simp only [planCommand, hcyc]
  rw [if_neg hne', hres]
  rfl

theorem buildCommand_all_unresolved (projects : ProjectsMap)
    (changed : List String)
    (hcyc : detectCycles (buildGraph projects) = none)
    (hne : changed ≠ [])
    (hres : resolveProjectNames changed (buildGraph projects) = []) :
    buildCommandPhase1 projects changed = .nothingToBuild := by
  have hne' : ¬(changed.isEmpty = true) := by
    cases changed with
    | nil => exact absurd rfl hne
    | cons a l => exact fun hx => Bool.noConfusion hx
  simp only [buildCommandPhase1, hcyc]
  rw [if_neg hne', hres, getAffectedProjects_nil]
  rfl

/-- C9: the claim's all-unresolved behavior holds for `plan` but not for
`build`. On the acyclic workspace `lineProjects`, the identifier `ghost`
resolves to nothing: `plan` fails fatally listing the inputs, while
`build` performs no resolution-failure check (`cli.ts` lines 346-363),
computes an empty affected set and empty wave list, and exits with
"Nothing to build" instead of the claimed fatal warning. -/
theorem c9_changed_resolution_counterexample :
    resolveProjectNames ["ghost"] (buildGraph lineProjects) = [] ∧
    planCommand lineProjects ["ghost"] = .fatalUnresolved ["ghost"] ∧
    buildCommandPhase1 lineProjects ["ghost"] = .nothingToBuild ∧
    buildCommandPhase1 lineProjects ["ghost"] ≠ .fatalUnresolved ["ghost"] := by
  refine ⟨by decide, by decide, by decide, by decide⟩

/-- C9 (amended): identifiers that resolve are kept under every one of
the three resolution rules — an identifier naming a project key exactly
contributes itself; one matching a project's relative or absolute path
(the first `find?` hit, as in the source's `break`) contributes that
project's name; one matching a project name by the `"/" + id` suffix
rule contributes that name; and in consequence every identifier that
resolves at all contributes a resolved name traceable to it. Every
resolved name is a project key traceable to some given identifier, so
unresolved identifiers are dropped. When no identifier resolves, the
`plan` command fails fatally listing the inputs, while the `build`
command instead returns its "Nothing to build" early exit. -/
theorem c9_changed_resolution_amended (projects : ProjectsMap)
    (changed : List String) :
    (∀ id ∈ changed,
      (id ∈ projectKeys projects →
        id ∈ resolveProjectNames changed (buildGraph projects)) ∧
      (id ∉ projectKeys projects → ∀ pr : String × Project,
        projects.find?
          (fun pr => pr.2.path == id || pr.2.absolutePath == id) = some pr →
        pr.1 ∈ resolveProjectNames changed (buildGraph projects)) ∧
      (id ∉ projectKeys projects → ∀ name : String,
        (projectKeys projects).find?
          (fun name => strEndsWith name ("/" ++ id) || name == id)
            = some name →
        name ∈ resolveProjectNames changed (buildGraph projects)) ∧
      ((id ∈ projectKeys projects ∨
          (∃ pr ∈ projects, pr.2.path = id ∨ pr.2.absolutePath = id) ∨
          (∃ name ∈ projectKeys projects,
            strEndsWith name ("/" ++ id) = true)) →
        ∃ x ∈ resolveProjectNames changed (buildGraph projects),
          (x = id ∨
            (∃ pr ∈ projects, pr.1 = x ∧
              (pr.2.path = id ∨ pr.2.absolutePath = id)) ∨
            strEndsWith x ("/" ++ id) = true))) ∧
    (∀ x ∈ resolveProjectNames changed (buildGraph projects),
      x ∈ projectKeys projects ∧ ∃ id ∈ changed,
        (x = id ∨
          (∃ pr ∈ projects, pr.1 = x ∧
            (pr.2.path = id ∨ pr.2.absolutePath = id)) ∨
          strEndsWith x ("/" ++ id) = true)) ∧
    (detectCycles (buildGraph projects) = none → changed ≠ [] →
      resolveProjectNames changed (buildGraph projects) = [] →
      planCommand projects changed = .fatalUnresolved changed) ∧
    (detectCycles (buildGraph projects) = none → changed ≠ [] →
      resolveProjectNames changed (buildGraph projects) = [] →
      buildCommandPhase1 projects changed = .nothingToBuild) := by
  refine ⟨?_, ?_, ?_, ?_⟩
  · intro id hid
    refine ⟨?_, ?_, ?_, ?_⟩
    · intro hkey
      exact resolve_keeps_exact (buildGraph projects) changed [] id hid hkey
    · intro hnk pr hf
      exact resolve_keeps_path (buildGraph projects) changed [] id pr hid hnk hf
    · intro hnk name hf
      exact resolve_keeps_name (buildGraph projects) changed [] id name hid
        hnk hf
    · intro hres
      rcases hres with hkey | ⟨pr, hpr, hcase⟩ | ⟨name, hname, hsuf⟩
      · exact ⟨id,
          resolve_keeps_exact (buildGraph projects) changed [] id hid hkey,
          Or.inl rfl⟩
      · by_cases hk : id ∈ projectKeys projects
        · exact ⟨id,
            resolve_keeps_exact (buildGraph projects) changed [] id hid hk,
            Or.inl rfl⟩
        · have hsome : (projects.find?
              (fun pr => pr.2.path == id || pr.2.absolutePath == id)).isSome
                = true := by
            rw [List.find?_isSome]
            refine ⟨pr, hpr, ?_⟩
            simp only [Bool.or_eq_true, beq_iff_eq]
            exact hcase
          obtain ⟨pr', hpr'⟩ := Option.isSome_iff_exists.mp hsome
          have hkeep := resolve_keeps_path (buildGraph projects) changed []
            id pr' hid hk hpr'
          have hprm : pr' ∈ projects := List.mem_of_find?_eq_some hpr'
          have hpred := List.find?_some hpr'
          simp only [Bool.or_eq_true, beq_iff_eq] at hpred
          exact ⟨pr'.1, hkeep, Or.inr (Or.inl ⟨pr', hprm, rfl, hpred⟩)⟩
      · by_cases hk : id ∈ projectKeys projects
        · exact ⟨id,
            resolve_keeps_exact (buildGraph projects) changed [] id hid hk,
            Or.inl rfl⟩
        · have hsome : ((projectKeys projects).find?
              (fun name => strEndsWith name ("/" ++ id) || name == id)).isSome
                = true := by
            rw [List.find?_isSome]
            refine ⟨name, hname, ?_⟩
            simp only [Bool.or_eq_true, beq_iff_eq]
            exact Or.inl hsuf
          obtain ⟨name', hn'⟩ := Option.isSome_iff_exists.mp hsome
          have hkeep := resolve_keeps_name (buildGraph projects) changed []
            id name' hid hk hn'
          have hpred := List.find?_some hn'
          simp only [Bool.or_eq_true, beq_iff_eq] at hpred
          rcases hpred with hp | hp
          · exact ⟨name', hkeep, Or.inr (Or.inr hp)⟩
          · exact ⟨name', hkeep, Or.inl hp⟩
  · intro x hx
    rcases foldl_resolveOne_sound (buildGraph projects) changed [] x hx with
      h | ⟨hkey, id, hid, hm⟩
    · cases h
    · exact ⟨hkey, id, hid, hm⟩
  · intro hcyc hne hres
    exact planCommand_all_unresolved projects changed hcyc hne hres
  · intro hcyc hne hres
    exact buildCommand_all_unresolved projects changed hcyc hne hres

/-- Witness for the C9 amended theorem: the all-unresolved `build` branch
at the concrete input `nope` over `lineProjects`. -/
theorem c9_changed_resolution_amended_witness :
    buildCommandPhase1 lineProjects ["nope"] = .nothingToBuild :=
  (c9_changed_resolution_amended lineProjects ["nope"]).2.2.2
    (by decide) (by decide) (by decide)

end Workgraph
